import Mathlib

/-!
# Verification of the magiceye SIRDS pipeline

Shallow embedding of the stereogram-generation core of the `magiceye`
repository (`src/lib/SIRDSGenerator.h`, `src/lib/TextureSampler.h`,
`src/lib/BlueNoise.h`, `src/lib/DepthMapGenerator.h`,
`src/lib/EdgeSmoother.h`, `src/lib/Options.h`).

Modelling conventions:
* C++ `float` values are modelled as exact rationals (`ℚ`).  All arithmetic
  appearing in the modelled code is field arithmetic, comparisons, floor,
  truncation and clamping, which the rational model represents faithfully
  up to floating-point rounding error (none of the claims hinges on such
  error).
* `std::pow` (libm, two calls inside `calculateSeparationMap`) is modelled
  as an abstract parameter `powf : ℚ → ℚ → ℚ`, since the exact bit pattern
  returned by libm is implementation-defined.  Every theorem quantifies
  over `powf` where relevant; evaluation theorems instantiate it.
* `std::mt19937(123456)` together with `std::uniform_int_distribution<int>(0,255)`
  is modelled as an abstract deterministic stream `rng : ℕ → ℕ` of drawn
  bytes with a running draw counter, because the mapping performed by
  `uniform_int_distribution` is implementation-defined.  The seed is the
  compile-time constant 123456, so the stream is one fixed function per
  platform and is shared by any two runs.
* C++ machine integers are modelled as `ℤ`/`ℕ`; `int` division is
  truncating division, matching `Int.div`.  `static_cast<uint8_t>` of an
  `int` is reduction mod 256; `static_cast<uint8_t>` of a `float` is
  truncation toward zero followed by reduction mod 256 (the C++ behaviour
  is undefined for out-of-range values; the model totalises it, and every
  statement about it points this out).
-/

/-- Truncation toward zero of a rational, as performed by C/C++ casts from
floating point to integer types. -/
def truncQ (q : ℚ) : ℤ := if 0 ≤ q then ⌊q⌋ else -⌊-q⌋

/-- `std::round`: rounding half away from zero. -/
def roundQ (q : ℚ) : ℤ := if 0 ≤ q then ⌊q + 1/2⌋ else -⌊-q + 1/2⌋

/-- `std::clamp` on integers, written exactly as the reference
implementation `v < lo ? lo : hi < v ? hi : v`. -/
def clampI (v lo hi : ℤ) : ℤ := if v < lo then lo else if hi < v then hi else v

/-- `std::clamp` on rationals (the float overload). -/
def clampQ (v lo hi : ℚ) : ℚ := if v < lo then lo else if hi < v then hi else v

/-- `static_cast<uint8_t>` applied to a nonnegative in-range float after a
`std::clamp(val, 0.0f, 255.0f)`: truncation toward zero. -/
def byteOfQ (q : ℚ) : ℕ := (truncQ (clampQ q 0 255)).toNat

/-- `static_cast<uint8_t>` of an arbitrary float value: truncation toward
zero, then reduction mod 256.  For values outside [0, 256) the C++ cast is
undefined behaviour; the model totalises it with the wrap-around that the
corresponding integer cast would perform. -/
def byteWrap (q : ℚ) : ℕ := ((truncQ q) % 256).toNat

/-- `std::fmod` for floats: `x - trunc(x/y) * y`. -/
def fmodQ (x y : ℚ) : ℚ := x - (truncQ (x / y) : ℚ) * y

/-- An RGB colour as three byte values (each in [0,255] whenever produced
by the modelled code). -/
abbrev Color := ℕ × ℕ × ℕ

/-! ## Union-Find (`SIRDSGenerator::UnionFind`)

The parent vector is a `List ℕ`; out-of-range reads return the index
itself (the C++ code never reads out of range in the modelled runs, and
this default makes every out-of-range index its own root, which keeps the
model total).  `find` is the recursive path-compressing
`parent[x] == x ? x : (parent[x] = find(parent[x]))`; the recursion is
modelled with explicit fuel, and the development proves that fuel equal to
the vector length always suffices under the forest invariant. -/

/-- `UnionFind::reset(n)`: every element is its own parent. -/
def ufReset (n : ℕ) : List ℕ := List.range n

/-- One parent-pointer dereference. -/
def pstep (p : List ℕ) (x : ℕ) : ℕ := p.getD x x

/-- Fuelled path-compressing find.  Mirrors
`int find(int x) { return parent[x] == x ? x : (parent[x] = find(parent[x])); }`:
the recursive call compresses the deeper part of the chain, then the entry
for `x` is overwritten with the returned root. -/
def findAux : ℕ → List ℕ → ℕ → ℕ × List ℕ
  | 0, p, x => (x, p)
  | fuel + 1, p, x =>
    let px := pstep p x
    if px = x then (x, p)
    else
      let res := findAux fuel p px
      (res.1, res.2.set x res.1)

/-- `UnionFind::find` with the always-sufficient fuel `p.length`. -/
def ufFind (p : List ℕ) (x : ℕ) : ℕ × List ℕ := findAux p.length p x

/-- `UnionFind::unite`: `a = find(a); b = find(b); if (a != b) parent[b] = a;`. -/
def ufUnite (p : List ℕ) (a b : ℕ) : List ℕ :=
  let fa := ufFind p a
  let fb := ufFind fa.2 b
  if fa.1 ≠ fb.1 then fb.2.set fb.1 fa.1 else fb.2

/-- Folding `unite` over a list of pairs. -/
def uniteList (p : List ℕ) (pairs : List (ℕ × ℕ)) : List ℕ :=
  pairs.foldl (fun q ab => ufUnite q ab.1 ab.2) p

/-! ### Union-find theory: the forest invariant and root semantics -/

/-- Iterated parent dereference. -/
def iterP (p : List ℕ) : ℕ → ℕ → ℕ
  | 0, x => x
  | k + 1, x => iterP p k (pstep p x)

/-- `x` is a root: its parent entry is itself. -/
def isRootP (p : List ℕ) (x : ℕ) : Prop := pstep p x = x

instance (p : List ℕ) (x : ℕ) : Decidable (isRootP p x) := by
  unfold isRootP; infer_instance

/-- The forest invariant: in-range parent entries are in range, and every
chain of parent pointers reaches a root. -/
def WFuf (p : List ℕ) : Prop :=
  (∀ i, i < p.length → p.getD i 0 < p.length) ∧
  (∀ x, ∃ k, isRootP p (iterP p k x))

/-- The semantic root of `x`: where `p.length` dereferences land.  Under
`WFuf` this is a root (proved below). -/
def rootD (p : List ℕ) (x : ℕ) : ℕ := iterP p p.length x

theorem iterP_add (p : List ℕ) (a b x : ℕ) :
    iterP p (a + b) x = iterP p b (iterP p a x) := by
  induction a generalizing x with
  | zero => simp [iterP]
  | succ a ih =>
    have : a + 1 + b = (a + b) + 1 := by omega
    rw [this]
    show iterP p (a + b) (pstep p x) = iterP p b (iterP p a (pstep p x))
    exact ih (pstep p x)

theorem iterP_succ_outer (p : List ℕ) (k x : ℕ) :
    iterP p (k + 1) x = pstep p (iterP p k x) := by
  have h := iterP_add p k 1 x
  simpa [iterP] using h

theorem isRootP_iterP (p : List ℕ) {y : ℕ} (h : isRootP p y) (k : ℕ) :
    iterP p k y = y := by
  induction k with
  | zero => rfl
  | succ k ih =>
    show iterP p k (pstep p y) = y
    rw [h]; exact ih

theorem pstep_of_ge (p : List ℕ) {x : ℕ} (h : p.length ≤ x) : pstep p x = x := by
  simp [pstep, List.getD, List.getElem?_eq_none h]

theorem isRootP_of_ge (p : List ℕ) {x : ℕ} (h : p.length ≤ x) : isRootP p x :=
  pstep_of_ge p h

theorem pstep_lt (p : List ℕ) (hb : ∀ i, i < p.length → p.getD i 0 < p.length)
    {x : ℕ} (hx : x < p.length) : pstep p x < p.length := by
  have hx' : p[x]? = some (p[x]) := List.getElem?_eq_getElem hx
  have : pstep p x = p.getD x 0 := by simp [pstep, List.getD, hx']
  rw [this]; exact hb x hx

theorem iterP_lt (p : List ℕ) (hb : ∀ i, i < p.length → p.getD i 0 < p.length)
    (k : ℕ) {x : ℕ} (hx : x < p.length) : iterP p k x < p.length := by
  induction k generalizing x with
  | zero => exact hx
  | succ k ih => exact ih (pstep_lt p hb hx)

/-- The escape lemma: under the forest invariant, `p.length` dereferences
always land on a root, so `rootD` really is the root and the recursive
`find` terminates within `p.length` steps. -/
theorem rootD_isRoot (p : List ℕ) (hWF : WFuf p) (x : ℕ) :
    isRootP p (rootD p x) := by
  rcases hWF with ⟨hb, hr⟩
  by_cases hx : x < p.length
  · -- let k₀ be the first index at which the chain from x is at a root
    have hex : ∃ k, isRootP p (iterP p k x) := hr x
    set k₀ := Nat.find hex with hk₀
    have hroot : isRootP p (iterP p k₀ x) := Nat.find_spec hex
    have hk₀le : k₀ ≤ p.length := by
      by_contra hgt
      push_neg at hgt
      -- the chain prefix of length k₀+1 is injective, contradicting that
      -- all its values lie in `range p.length`
      have hinj : Set.InjOn (fun i => iterP p i x) ↑(Finset.range (k₀ + 1)) := by
        intro i hi j hj hij
        simp only [Finset.coe_range, Set.mem_Iio] at hi hj
        have hij' : iterP p i x = iterP p j x := hij
        by_contra hne
        rcases Nat.lt_or_ge i j with hlt | hge
        · have hper : iterP p (i + (k₀ - j)) x = iterP p (j + (k₀ - j)) x := by
            rw [iterP_add, iterP_add, hij']
          have hjk : j + (k₀ - j) = k₀ := by omega
          rw [hjk] at hper
          have : isRootP p (iterP p (i + (k₀ - j)) x) := by rw [hper]; exact hroot
          have hlt' : i + (k₀ - j) < k₀ := by omega
          exact Nat.find_min hex hlt' this
        · rcases Nat.lt_or_ge j i with hlt2 | hge2
          · have hper : iterP p (j + (k₀ - i)) x = iterP p (i + (k₀ - i)) x := by
              rw [iterP_add, iterP_add, hij']
            have hik : i + (k₀ - i) = k₀ := by omega
            rw [hik] at hper
            have : isRootP p (iterP p (j + (k₀ - i)) x) := by rw [hper]; exact hroot
            have hlt' : j + (k₀ - i) < k₀ := by omega
            exact Nat.find_min hex hlt' this
          · exact hne (by omega)
      have hmaps : ∀ i ∈ Finset.range (k₀ + 1),
          (fun i => iterP p i x) i ∈ Finset.range p.length := by
        intro i _
        simp only [Finset.mem_range]
        exact iterP_lt p hb i hx
      have hcard := Finset.card_le_card_of_injOn _ hmaps hinj
      simp only [Finset.card_range] at hcard
      omega
    have : rootD p x = iterP p k₀ x := by
      have hsplit : p.length = k₀ + (p.length - k₀) := by omega
      rw [rootD, hsplit, iterP_add]
      exact isRootP_iterP p hroot _
    rw [this]; exact hroot
  · push_neg at hx
    have hroot := isRootP_of_ge p hx
    have : rootD p x = x := isRootP_iterP p hroot _
    rw [this]; exact hroot

theorem rootD_of_root (p : List ℕ) {y : ℕ} (h : isRootP p y) : rootD p y = y :=
  isRootP_iterP p h _

theorem rootD_pstep (p : List ℕ) (hWF : WFuf p) (x : ℕ) :
    rootD p (pstep p x) = rootD p x := by
  have h1 : rootD p (pstep p x) = iterP p (p.length + 1) x := by
    rw [rootD]
    have : p.length + 1 = 1 + p.length := by omega
    rw [this, iterP_add]
    rfl
  rw [h1, iterP_succ_outer]
  exact rootD_isRoot p hWF x

theorem rootD_iterP (p : List ℕ) (hWF : WFuf p) (k x : ℕ) :
    rootD p (iterP p k x) = rootD p x := by
  induction k generalizing x with
  | zero => rfl
  | succ k ih =>
    show rootD p (iterP p k (pstep p x)) = rootD p x
    rw [ih (pstep p x)]
    exact rootD_pstep p hWF x

theorem rootD_rootD (p : List ℕ) (hWF : WFuf p) (x : ℕ) :
    rootD p (rootD p x) = rootD p x :=
  rootD_iterP p hWF _ x

theorem rootD_eq_self_iff (p : List ℕ) (hWF : WFuf p) (x : ℕ) :
    rootD p x = x ↔ isRootP p x := by
  constructor
  · intro h
    have := rootD_isRoot p hWF x
    rwa [h] at this
  · exact rootD_of_root p

theorem rootD_lt (p : List ℕ) (hb : ∀ i, i < p.length → p.getD i 0 < p.length)
    {x : ℕ} (hx : x < p.length) : rootD p x < p.length :=
  iterP_lt p hb _ hx

theorem getD_set_self (l : List ℕ) (i v d : ℕ) (h : i < l.length) :
    (l.set i v).getD i d = v := by
  simp [List.getD, List.getElem?_set, h]

theorem getD_set_ne (l : List ℕ) (i j v d : ℕ) (h : i ≠ j) :
    (l.set i v).getD j d = l.getD j d := by
  simp [List.getD, List.getElem?_set, h]

theorem pstep_set_self (p : List ℕ) (u v : ℕ) (hu : u < p.length) :
    pstep (p.set u v) u = v := getD_set_self p u v u hu

theorem pstep_set_ne (p : List ℕ) (u v y : ℕ) (h : u ≠ y) :
    pstep (p.set u v) y = pstep p y := getD_set_ne p u y v y h

/-- A chain in the updated vector either coincides with the old chain or
passes through the newly written value `v` within the same number of
steps. -/
theorem iterP_set_cases (p : List ℕ) (u v : ℕ) (hu : u < p.length) :
    ∀ k y, iterP (p.set u v) k y = iterP p k y ∨
      ∃ j, j ≤ k ∧ iterP (p.set u v) j y = v := by
  intro k
  induction k with
  | zero => intro y; exact Or.inl rfl
  | succ k ih =>
    intro y
    by_cases hy : y = u
    · subst hy
      refine Or.inr ⟨1, by omega, ?_⟩
      show iterP (p.set y v) 0 (pstep (p.set y v) y) = v
      rw [pstep_set_self p y v hu]; rfl
    · have hstep : pstep (p.set u v) y = pstep p y :=
        pstep_set_ne p u v y (fun h => hy h.symm)
      have h1 : iterP (p.set u v) (k + 1) y = iterP (p.set u v) k (pstep p y) := by
        show iterP (p.set u v) k (pstep (p.set u v) y) = _
        rw [hstep]
      rcases ih (pstep p y) with hl | ⟨j, hj, hjv⟩
      · exact Or.inl (by rw [h1, hl]; rfl)
      · refine Or.inr ⟨j + 1, by omega, ?_⟩
        show iterP (p.set u v) j (pstep (p.set u v) y) = v
        rw [hstep]; exact hjv

/-- The central mutation lemma: overwriting `parent[u]` with a root `v`
(when either `u` itself is a root being re-attached, as in `unite`, or `v`
is `u`'s own root, as in path compression) preserves the forest invariant
and merges/preserves the classes as described. -/
theorem set_WF_rootD (p : List ℕ) (hWF : WFuf p) (u v : ℕ)
    (hu : u < p.length) (hv : v < p.length) (hvr : isRootP p v)
    (hgood : isRootP p u ∨ v = rootD p u) :
    WFuf (p.set u v) ∧ ∀ y, rootD (p.set u v) y =
      if rootD p y = rootD p u then v else rootD p y := by
  set p' := p.set u v with hp'
  have hlen : p'.length = p.length := List.length_set p u v
  have hvroot : rootD p v = v := rootD_of_root p hvr
  -- the class map `f` that the update realises
  set f : ℕ → ℕ := fun y => if rootD p y = rootD p u then v else rootD p y with hf
  have hfstep : ∀ y, f (pstep p' y) = f y := by
    intro y
    by_cases hy : y = u
    · subst hy
      rw [pstep_set_self p y v (by exact hu)]
      have hfv : f v = v := by
        rcases hgood with hroot | heq
        · have : rootD p y = y := rootD_of_root p hroot
          simp only [hf, hvroot, this]
          by_cases hvy : v = y
          · simp [hvy]
          · simp [hvy]
        · simp [hf, hvroot, heq, rootD_rootD p hWF]
      have hfu : f y = v := by simp [hf]
      rw [hfv, hfu]
    · have : pstep p' y = pstep p y := pstep_set_ne p u v y (fun h => hy h.symm)
      rw [this]
      simp only [hf, rootD_pstep p hWF y]
  have hfiter : ∀ k y, f (iterP p' k y) = f y := by
    intro k
    induction k with
    | zero => intro y; rfl
    | succ k ih =>
      intro y
      show f (iterP p' k (pstep p' y)) = f y
      rw [ih (pstep p' y), hfstep y]
  have hproot : ∀ z, isRootP p' z → f z = z := by
    intro z hz
    by_cases hzu : z = u
    · subst hzu
      have : v = z := by
        have := pstep_set_self p z v hu
        rw [← hp'] at this
        rw [hz] at this
        exact this.symm
      simp [hf, ← this]
    · have hzp : isRootP p z := by
        have hne := pstep_set_ne p u v z (fun h => hzu h.symm)
        show pstep p z = z
        rw [← hne]
        exact hz
      have hzr : rootD p z = z := rootD_of_root p hzp
      simp only [hf, hzr]
      by_cases hcase : z = rootD p u
      · rcases hgood with hroot | heq
        · have : rootD p u = u := rootD_of_root p hroot
          rw [this] at hcase
          exact absurd hcase hzu
        · simp [hcase, ← heq]
      · simp [hcase]
  have hbounds : ∀ i, i < p'.length → p'.getD i 0 < p'.length := by
    intro i hi
    rw [hlen] at hi ⊢
    by_cases hiu : i = u
    · subst hiu
      rw [hp', getD_set_self p i v 0 hu]
      exact hv
    · rw [hp', getD_set_ne p u i v 0 (fun h => hiu h.symm)]
      exact hWF.1 i hi
  have hvroot' : isRootP p' v := by
    by_cases hvu : v = u
    · show pstep p' v = v
      rw [hvu, pstep_set_self p u v hu, hvu]
    · show pstep p' v = v
      rw [pstep_set_ne p u v v (fun h => hvu h.symm)]
      exact hvr
  have hreach : ∀ y, ∃ k, isRootP p' (iterP p' k y) := by
    intro y
    rcases iterP_set_cases p u v hu p.length y with hl | ⟨j, _, hjv⟩
    · have hz : iterP p' p.length y = rootD p y := by rw [hl]; rfl
      have hzroot : isRootP p (rootD p y) := rootD_isRoot p hWF y
      by_cases hzu : rootD p y = u
      · -- the old root is `u` itself, whose parent is now v
        refine ⟨p.length + 1, ?_⟩
        have hstep : iterP p' (p.length + 1) y = pstep p' (iterP p' p.length y) :=
          iterP_succ_outer p' p.length y
        rw [hstep, hz, hzu, pstep_set_self p u v hu]
        exact hvroot'
      · refine ⟨p.length, ?_⟩
        rw [hz]
        show pstep p' (rootD p y) = rootD p y
        rw [pstep_set_ne p u v (rootD p y) (fun h => hzu h.symm)]
        exact hzroot
    · exact ⟨j, by rw [hjv]; exact hvroot'⟩
  have hWF' : WFuf p' := ⟨hbounds, hreach⟩
  refine ⟨hWF', ?_⟩
  intro y
  have h1 : f (rootD p' y) = f y := by
    rw [rootD, hlen]; exact hfiter p.length y
  have h2 : f (rootD p' y) = rootD p' y := hproot _ (rootD_isRoot p' hWF' y)
  rw [← h2, h1]

theorem findAux_length (fuel : ℕ) : ∀ (p : List ℕ) (x : ℕ),
    (findAux fuel p x).2.length = p.length := by
  induction fuel with
  | zero => intro p x; rfl
  | succ fuel ih =>
    intro p x
    by_cases h : pstep p x = x
    · simp [findAux, h]
    · have hres : findAux (fuel + 1) p x =
          ((findAux fuel p (pstep p x)).1,
           (findAux fuel p (pstep p x)).2.set x (findAux fuel p (pstep p x)).1) := by
        simp only [findAux]
        rw [if_neg h]
      rw [hres]
      show ((findAux fuel p (pstep p x)).2.set x (findAux fuel p (pstep p x)).1).length = p.length
      rw [List.length_set]
      exact ih p (pstep p x)

/-- Full specification of the fuelled find: given enough fuel to reach the
root, it returns the semantic root, preserves the invariant, the length,
and every element's semantic root (path compression is observationally
transparent). -/
theorem findAux_spec (fuel : ℕ) : ∀ (p : List ℕ) (x : ℕ), WFuf p →
    (∃ k, k ≤ fuel ∧ isRootP p (iterP p k x)) →
    (findAux fuel p x).1 = rootD p x ∧
    WFuf (findAux fuel p x).2 ∧
    (∀ y, rootD (findAux fuel p x).2 y = rootD p y) := by
  induction fuel with
  | zero =>
    intro p x hWF hex
    obtain ⟨k, hk, hroot⟩ := hex
    have hk0 : k = 0 := by omega
    subst hk0
    have hx : isRootP p x := hroot
    have : rootD p x = x := rootD_of_root p hx
    exact ⟨this.symm, hWF, fun y => rfl⟩
  | succ fuel ih =>
    intro p x hWF ⟨k, hk, hroot⟩
    by_cases hx : pstep p x = x
    · have hroot' : rootD p x = x := rootD_of_root p hx
      have hres : findAux (fuel + 1) p x = (x, p) := by
        simp only [findAux]
        rw [if_pos hx]
      rw [hres]
      exact ⟨hroot'.symm, hWF, fun y => rfl⟩
    · -- the chain is nontrivial, so x is in range and k ≥ 1
      have hxlt : x < p.length := by
        by_contra h
        push_neg at h
        exact hx (pstep_of_ge p h)
      obtain ⟨k', rfl⟩ : ∃ k', k = k' + 1 := by
        cases k with
        | zero => exact absurd hroot hx
        | succ k' => exact ⟨k', rfl⟩
      have hrec := ih p (pstep p x) hWF ⟨k', by omega, hroot⟩
      obtain ⟨hr1, hWF1, hr3⟩ := hrec
      have hlen1 : (findAux fuel p (pstep p x)).2.length = p.length :=
        findAux_length fuel p (pstep p x)
      set p1 := (findAux fuel p (pstep p x)).2 with hp1
      set r := (findAux fuel p (pstep p x)).1 with hr
      have hrx : r = rootD p x := by rw [hr1, rootD_pstep p hWF x]
      have hrlt : r < p.length := by rw [hrx]; exact rootD_lt p hWF.1 hxlt
      have hrroot1 : isRootP p1 r := by
        rw [← rootD_eq_self_iff p1 hWF1 r, hr3 r, hrx]
        exact rootD_rootD p hWF x
      have hset := set_WF_rootD p1 hWF1 x r (by rw [hlen1]; exact hxlt)
        (by rw [hlen1]; exact hrlt) hrroot1
        (Or.inr (by rw [hr3 x, hrx]))
      have hres : findAux (fuel + 1) p x = (r, p1.set x r) := by
        simp only [findAux, if_neg hx]
      rw [hres]
      refine ⟨hrx, hset.1, ?_⟩
      intro y
      have := hset.2 y
      rw [this, hr3 y, hr3 x]
      by_cases hc : rootD p y = rootD p x
      · rw [if_pos hc, hrx, hc]
      · rw [if_neg hc]

theorem ufFind_spec (p : List ℕ) (hWF : WFuf p) (x : ℕ) :
    (ufFind p x).1 = rootD p x ∧
    (ufFind p x).2.length = p.length ∧
    WFuf (ufFind p x).2 ∧
    (∀ y, rootD (ufFind p x).2 y = rootD p y) := by
  have hfuel : ∃ k, k ≤ p.length ∧ isRootP p (iterP p k x) :=
    ⟨p.length, le_refl _, rootD_isRoot p hWF x⟩
  have h := findAux_spec p.length p x hWF hfuel
  exact ⟨h.1, findAux_length p.length p x, h.2.1, h.2.2⟩

theorem ufUnite_spec (p : List ℕ) (hWF : WFuf p) (a b : ℕ)
    (ha : a < p.length) (hb : b < p.length) :
    (ufUnite p a b).length = p.length ∧
    WFuf (ufUnite p a b) ∧
    (∀ y, rootD (ufUnite p a b) y =
      if rootD p y = rootD p b then rootD p a else rootD p y) := by
  obtain ⟨hfa1, hfa2, hfa3, hfa4⟩ := ufFind_spec p hWF a
  set p1 := (ufFind p a).2 with hp1
  obtain ⟨hfb1, hfb2, hfb3, hfb4⟩ := ufFind_spec p1 hfa3 b
  set p2 := (ufFind p1 b).2 with hp2
  have hra : (ufFind p a).1 = rootD p a := hfa1
  have hrb : (ufFind p1 b).1 = rootD p b := by rw [hfb1, hfa4 b]
  have hlen2 : p2.length = p.length := by rw [hfb2, hfa2]
  have hrootDb2 : ∀ y, rootD p2 y = rootD p y := by
    intro y; rw [hfb4 y, hfa4 y]
  by_cases hne : (ufFind p a).1 ≠ (ufFind p1 b).1
  · have hne' : rootD p a ≠ rootD p b := by
      intro h
      exact hne (by rw [hra, hrb, h])
    have hres : ufUnite p a b = p2.set (rootD p b) (rootD p a) := by
      simp only [ufUnite, ← hp1, ← hp2, hra, hrb]
      rw [if_pos hne']
    have hralt : rootD p a < p.length := rootD_lt p hWF.1 ha
    have hrblt : rootD p b < p.length := rootD_lt p hWF.1 hb
    have hraroot : isRootP p2 (rootD p a) := by
      rw [← rootD_eq_self_iff p2 hfb3, hrootDb2]
      exact rootD_rootD p hWF a
    have hrbroot : isRootP p2 (rootD p b) := by
      rw [← rootD_eq_self_iff p2 hfb3, hrootDb2]
      exact rootD_rootD p hWF b
    have hset := set_WF_rootD p2 hfb3 (rootD p b) (rootD p a)
      (by rw [hlen2]; exact hrblt) (by rw [hlen2]; exact hralt)
      hraroot (Or.inl hrbroot)
    refine ⟨?_, ?_, ?_⟩
    · rw [hres, List.length_set, hlen2]
    · rw [hres]; exact hset.1
    · intro y
      rw [hres]
      have := hset.2 y
      rw [this, hrootDb2 y]
      have hrbfix : rootD p2 (rootD p b) = rootD p b := by
        rw [hrootDb2]; exact rootD_rootD p hWF b
      rw [hrbfix]
  · push_neg at hne
    have hres : ufUnite p a b = p2 := by
      simp only [ufUnite, ← hp1, ← hp2]
      rw [if_neg (by simpa using hne)]
    have hab : rootD p a = rootD p b := by rw [← hra, ← hrb, hne]
    refine ⟨by rw [hres]; exact hlen2, by rw [hres]; exact hfb3, ?_⟩
    intro y
    rw [hres, hrootDb2 y]
    by_cases hc : rootD p y = rootD p b
    · rw [if_pos hc, hc, hab]
    · rw [if_neg hc]

theorem ufReset_WF (n : ℕ) : WFuf (ufReset n) := by
  constructor
  · intro i hi
    rw [ufReset] at hi ⊢
    rw [List.length_range] at hi
    simp [List.getD, List.getElem?_range hi, hi]
  · intro x
    refine ⟨0, ?_⟩
    show pstep (ufReset n) x = x
    by_cases hx : x < n
    · simp [pstep, ufReset, List.getD, List.getElem?_range hx]
    · have : (ufReset n).length ≤ x := by
        rw [ufReset, List.length_range]; omega
      exact pstep_of_ge _ this

theorem ufReset_length (n : ℕ) : (ufReset n).length = n := List.length_range n

theorem ufReset_rootD (n x : ℕ) : rootD (ufReset n) x = x := by
  apply rootD_of_root
  have := (ufReset_WF n).2
  show pstep (ufReset n) x = x
  by_cases hx : x < n
  · simp [pstep, ufReset, List.getD, List.getElem?_range hx]
  · exact pstep_of_ge _ (by rw [ufReset_length]; omega)

/-- Folding `unite` over a pair list: the invariant is preserved, classes
only ever merge, and every listed pair ends up in one class. -/
theorem uniteList_spec (pairs : List (ℕ × ℕ)) : ∀ (p : List ℕ), WFuf p →
    (∀ ab ∈ pairs, ab.1 < p.length ∧ ab.2 < p.length) →
    (uniteList p pairs).length = p.length ∧
    WFuf (uniteList p pairs) ∧
    (∀ x y, rootD p x = rootD p y →
      rootD (uniteList p pairs) x = rootD (uniteList p pairs) y) ∧
    (∀ ab ∈ pairs, rootD (uniteList p pairs) ab.1 = rootD (uniteList p pairs) ab.2) := by
  induction pairs with
  | nil =>
    intro p hWF _
    exact ⟨rfl, hWF, fun x y h => h, fun ab hab => absurd hab (List.not_mem_nil ab)⟩
  | cons ab rest ih =>
    intro p hWF hmem
    have hab := hmem ab (List.mem_cons_self ab rest)
    obtain ⟨hlen1, hWF1, hroot1⟩ := ufUnite_spec p hWF ab.1 ab.2 hab.1 hab.2
    set q := ufUnite p ab.1 ab.2 with hq
    have hmem' : ∀ cd ∈ rest, cd.1 < q.length ∧ cd.2 < q.length := by
      intro cd hcd
      rw [hlen1]
      exact hmem cd (List.mem_cons_of_mem ab hcd)
    obtain ⟨ihlen, ihWF, ihmono, ihpairs⟩ := ih q hWF1 hmem'
    have hfold : uniteList p (ab :: rest) = uniteList q rest := rfl
    have hqmono : ∀ x y, rootD p x = rootD p y → rootD q x = rootD q y := by
      intro x y h
      rw [hroot1 x, hroot1 y, h]
    refine ⟨?_, ?_, ?_, ?_⟩
    · rw [hfold, ihlen, hlen1]
    · rw [hfold]; exact ihWF
    · intro x y h
      rw [hfold]
      exact ihmono x y (hqmono x y h)
    · intro cd hcd
      rcases List.mem_cons.mp hcd with heq | hrest
      · subst heq
        rw [hfold]
        apply ihmono
        have h1 : rootD q cd.1 = rootD p cd.1 := by
          rw [hroot1 cd.1]
          by_cases hc : rootD p cd.1 = rootD p cd.2
          · rw [if_pos hc, hc]
          · rw [if_neg hc]
        have h2 : rootD q cd.2 = rootD p cd.1 := by
          rw [hroot1 cd.2, if_pos rfl]
        rw [h1, h2]
      · rw [hfold]
        exact ihpairs cd hrest

/-- Transitive closure of "these two pixels were passed to `unite`" during
one linking pass. -/
inductive United (pairs : List (ℕ × ℕ)) : ℕ → ℕ → Prop
  | base {a b : ℕ} : (a, b) ∈ pairs → United pairs a b
  | refl (x : ℕ) : United pairs x x
  | symm {a b : ℕ} : United pairs a b → United pairs b a
  | trans {a b c : ℕ} : United pairs a b → United pairs b c → United pairs a c

/-- Pixels united directly or transitively end in the same class. -/
theorem United_rootD (pairs : List (ℕ × ℕ)) (p : List ℕ) (hWF : WFuf p)
    (hmem : ∀ ab ∈ pairs, ab.1 < p.length ∧ ab.2 < p.length)
    {x y : ℕ} (h : United pairs x y) :
    rootD (uniteList p pairs) x = rootD (uniteList p pairs) y := by
  obtain ⟨_, _, _, hpairs⟩ := uniteList_spec pairs p hWF hmem
  induction h with
  | base hab => exact hpairs _ hab
  | refl x => rfl
  | symm _ ih => exact ih.symm
  | trans _ _ ih1 ih2 => exact ih1.trans ih2

/-! ## Options (`src/lib/Options.h`)

Only the fields read by the SIRDS generator (plus `rng_seed`, whose role
two claims discuss) are modelled; defaults are those of `Options.h`. -/

structure OptionsM where
  depth_gamma : ℚ := 1
  foreground_threshold : ℚ := 9/10
  smoothThreshold : ℚ := 3/4
  smoothWeight : ℚ := 6
  rng_seed : ℤ := -1
deriving DecidableEq

/-! ## Texture sampling (`src/lib/TextureSampler.h`)

The texture is an interleaved byte buffer; `tchan` is the channel stride. -/

/-- The clamped texel fetch local to `sampleBilinear`
(`x = std::clamp(x, 0, tw - 1); y = std::clamp(y, 0, th - 1);`). -/
def getTexelClamped (texture : List ℕ) (tw th tchan : ℕ) (x y : ℤ) (c : ℕ) : ℚ :=
  let x' := clampI x 0 ((tw : ℤ) - 1)
  let y' := clampI y 0 ((th : ℤ) - 1)
  ((texture.getD ((y' * (tw : ℤ) + x').toNat * tchan + c) 0 : ℕ) : ℚ)

/-- `TextureSampler::sampleBilinear` (clamped addressing). -/
def sampleBilinear (texture : List ℕ) (tw th tchan : ℕ) (texX texY : ℚ) : Color :=
  let tX := clampQ texX 0 ((tw : ℚ) - 1)
  let tY := clampQ texY 0 ((th : ℚ) - 1)
  let x0 : ℤ := ⌊tX⌋
  let y0 : ℤ := ⌊tY⌋
  let fx : ℚ := tX - (x0 : ℚ)
  let fy : ℚ := tY - (y0 : ℚ)
  let x1 : ℤ := min (x0 + 1) ((tw : ℤ) - 1)
  let y1 : ℤ := min (y0 + 1) ((th : ℤ) - 1)
  let x0c : ℤ := clampI x0 0 ((tw : ℤ) - 1)
  let y0c : ℤ := clampI y0 0 ((th : ℤ) - 1)
  let chan := fun (c : ℕ) =>
    let c00 := getTexelClamped texture tw th tchan x0c y0c c
    let c10 := getTexelClamped texture tw th tchan x1 y0c c
    let c01 := getTexelClamped texture tw th tchan x0c y1 c
    let c11 := getTexelClamped texture tw th tchan x1 y1 c
    let top := (1 - fx) * c00 + fx * c10
    let bottom := (1 - fx) * c01 + fx * c11
    byteOfQ ((1 - fy) * top + fy * bottom)
  (chan 0, chan 1, chan 2)

/-- The unchecked texel fetch local to `sampleBilinearTiled`. -/
def getTexelTiled (texture : List ℕ) (tw tchan : ℕ) (x y : ℤ) (c : ℕ) : ℚ :=
  ((texture.getD ((y * (tw : ℤ) + x).toNat * tchan + c) 0 : ℕ) : ℚ)

/-- `TextureSampler::sampleBilinearTiled` (wrapped/modulo addressing). -/
def sampleBilinearTiled (texture : List ℕ) (tw th tchan : ℕ) (texX texY : ℚ) : Color :=
  let tX0 := fmodQ texX (tw : ℚ)
  let tX := if tX0 < 0 then tX0 + (tw : ℚ) else tX0
  let tY0 := fmodQ texY (th : ℚ)
  let tY := if tY0 < 0 then tY0 + (th : ℚ) else tY0
  let x0 : ℤ := truncQ tX
  let y0 : ℤ := truncQ tY
  let fx : ℚ := tX - (x0 : ℚ)
  let fy : ℚ := tY - (y0 : ℚ)
  let x1 : ℤ := Int.tmod (x0 + 1) (tw : ℤ)
  let y1 : ℤ := Int.tmod (y0 + 1) (th : ℤ)
  let chan := fun (c : ℕ) =>
    let c00 := getTexelTiled texture tw tchan x0 y0 c
    let c10 := getTexelTiled texture tw tchan x1 y0 c
    let c01 := getTexelTiled texture tw tchan x0 y1 c
    let c11 := getTexelTiled texture tw tchan x1 y1 c
    let top := (1 - fx) * c00 + fx * c10
    let bottom := (1 - fx) * c01 + fx * c11
    byteOfQ ((1 - fy) * top + fy * bottom)
  (chan 0, chan 1, chan 2)

/-! ## SIRDS generator (`src/lib/SIRDSGenerator.h`) -/

/-- `SIRDSGenerator::adjustDepthRange`. -/
def adjustDepthRange (depth : List ℚ) (bg_separation : ℚ) : List ℚ :=
  depth.map (fun d => d * (1 - bg_separation))

/-- The `sep_scale` factor of `calculateSeparationMap`:
`1 + pow(|d - focus_depth| * 2, 1.5) * 0.5` with `focus_depth = 0.5`. -/
def sepScale (powf : ℚ → ℚ → ℚ) (d : ℚ) : ℚ :=
  1 + powf (|d - 1/2| * 2) (3/2) * (1/2)

/-- One entry of the separation map:
`clamp(int(round(min_sep + (max_sep - min_sep) * pow(1 - d, depth_gamma) * sep_scale)), min_sep, max_sep)`
with `min_sep = 3` and `max_sep = eye_separation`. -/
def sepValue (powf : ℚ → ℚ → ℚ) (d gamma : ℚ) (eye_separation : ℤ) : ℤ :=
  let min_separation : ℤ := 3
  let max_separation : ℤ := eye_separation
  let sep_float : ℚ := (min_separation : ℚ) +
    ((max_separation : ℚ) - (min_separation : ℚ)) * powf (1 - d) gamma * sepScale powf d
  clampI (roundQ sep_float) min_separation max_separation

/-- `SIRDSGenerator::calculateSeparationMap`. -/
def calculateSeparationMap (powf : ℚ → ℚ → ℚ) (adjusted_depth : List ℚ)
    (width height : ℕ) (eye_separation : ℤ) (gamma : ℚ) : List ℤ :=
  (List.range (width * height)).map
    (fun i => sepValue powf (adjusted_depth.getD i 0) gamma eye_separation)

/-- One loop iteration of `SIRDSGenerator::buildUnions`. -/
def buildUnionsStep (y width : ℕ) (adjusted_depth : List ℚ)
    (separation_map : List ℤ) (fg : ℚ) (p : List ℕ) (x : ℕ) : List ℕ :=
  let sep := separation_map.getD (y * width + x) 0
  let left : ℤ := (x : ℤ) - Int.tdiv sep 2
  let right : ℤ := left + sep
  if 0 ≤ left ∧ right < (width : ℤ) then
    let d := adjusted_depth.getD (y * width + x) 0
    let p1 := if fg < d ∧ 0 < x then ufUnite p (x - 1) x else p
    ufUnite p1 left.toNat right.toNat
  else p

/-- `SIRDSGenerator::buildUnions` for one scanline. -/
def buildUnions (y width : ℕ) (adjusted_depth : List ℚ) (separation_map : List ℤ)
    (fg : ℚ) (p0 : List ℕ) : List ℕ :=
  (List.range width).foldl (buildUnionsStep y width adjusted_depth separation_map fg) p0

/-- The pairs handed to `unite` by `buildUnions`, in call order. -/
def buildUnionsPairs (y width : ℕ) (adjusted_depth : List ℚ)
    (separation_map : List ℤ) (fg : ℚ) : List (ℕ × ℕ) :=
  (List.range width).flatMap (fun x =>
    let sep := separation_map.getD (y * width + x) 0
    let left : ℤ := (x : ℤ) - Int.tdiv sep 2
    let right : ℤ := left + sep
    if 0 ≤ left ∧ right < (width : ℤ) then
      let d := adjusted_depth.getD (y * width + x) 0
      (if fg < d ∧ 0 < x then [(x - 1, x)] else []) ++ [(left.toNat, right.toNat)]
    else [])

/-- One loop iteration of `SIRDSGenerator::identifyRoots`:
`is_root[x] = (uf.find(x) == x)`, threading the compressed parent state. -/
def identifyRootsStep (st : List Bool × List ℕ) (x : ℕ) : List Bool × List ℕ :=
  let f := ufFind st.2 x
  (st.1 ++ [decide (f.1 = x)], f.2)

/-- `SIRDSGenerator::identifyRoots`. -/
def identifyRoots (width : ℕ) (p0 : List ℕ) : List Bool × List ℕ :=
  (List.range width).foldl identifyRootsStep ([], p0)

/-- Third stage of `tryPropagateFromNeighbors`: the diagonal (up-left)
neighbour, read from the previous scanline of the output buffer. -/
def tryPropagateDiag (x y width : ℕ) (p : List ℕ) (is_root : List Bool)
    (out_rgb : List ℕ) : Option Color × List ℕ :=
  if 0 < x ∧ 0 < y then
    let f := ufFind p (x - 1)
    if f.1 ≠ x ∧ is_root.getD f.1 false then
      let diag_idx := ((y - 1) * width + (x - 1)) * 3
      (some (out_rgb.getD diag_idx 0, out_rgb.getD (diag_idx + 1) 0,
             out_rgb.getD (diag_idx + 2) 0), f.2)
    else (none, f.2)
  else (none, p)

/-- Second stage of `tryPropagateFromNeighbors`: the pixel directly above,
read from the previous scanline of the output buffer. -/
def tryPropagateAbove (x y width : ℕ) (p : List ℕ) (is_root : List Bool)
    (out_rgb : List ℕ) : Option Color × List ℕ :=
  if 0 < y then
    let f := ufFind p x
    if f.1 ≠ x ∧ is_root.getD f.1 false then
      let above_idx := ((y - 1) * width + x) * 3
      (some (out_rgb.getD above_idx 0, out_rgb.getD (above_idx + 1) 0,
             out_rgb.getD (above_idx + 2) 0), f.2)
    else tryPropagateDiag x y width f.2 is_root out_rgb
  else tryPropagateDiag x y width p is_root out_rgb

/-- `SIRDSGenerator::tryPropagateFromNeighbors`: left neighbour's root
colour, else the pixel above, else the diagonal.  Returns the propagated
colour (if any) and the parent vector after the embedded `find` calls. -/
def tryPropagateFromNeighbors (x y width : ℕ) (p : List ℕ) (is_root : List Bool)
    (rootColor : List Color) (out_rgb : List ℕ) : Option Color × List ℕ :=
  if 0 < x then
    let f := ufFind p (x - 1)
    if f.1 ≠ x ∧ is_root.getD f.1 false then
      (some (rootColor.getD f.1 (0, 0, 0)), f.2)
    else tryPropagateAbove x y width f.2 is_root out_rgb
  else tryPropagateAbove x y width p is_root out_rgb

/-- `SIRDSGenerator::getTextureColor`: bilinear sample plus
brightness/contrast in normalised float space. -/
def getTextureColor (x y width height : ℕ) (texture : List ℕ)
    (tw th tchan : ℕ) (brightness contrast : ℚ) : Color :=
  let texX : ℚ := (x : ℚ) * ((tw : ℚ) / (width : ℚ))
  let texY : ℚ := (y : ℚ) * ((th : ℚ) / (height : ℚ))
  let color := sampleBilinear texture tw th tchan texX texY
  let adj := fun (v : ℕ) =>
    let val : ℚ := (v : ℚ) / 255
    let val := ((val - 1/2) * contrast) + 1/2
    let val := val * brightness
    byteOfQ (val * 255)
  (adj color.1, adj color.2.1, adj color.2.2)

/-- `SIRDSGenerator::getRandomColor`: three consecutive draws from the
fixed-seed generator stream, with the updated draw counter. -/
def getRandomColor (rng : ℕ → ℕ) (k : ℕ) : Color × ℕ :=
  ((rng k, rng (k + 1), rng (k + 2)), k + 3)

/-- `SIRDSGenerator::assignColors`.  The fold state is
(rootColor, parent vector, draw counter).  `rootColor` starts
value-initialised to (0,0,0) (`std::vector<std::array<uint8_t,3>> rootColor(width)`).
Mirroring the source faithfully, the statement `rootColor[x] = color;`
appears only in the non-propagated branch, so a propagated colour is
computed and then dropped. -/
def assignColorsStep (y width height : ℕ) (adjusted_depth : List ℚ) (fg : ℚ)
    (is_root : List Bool) (texture : List ℕ) (tw th tchan : ℕ)
    (out_rgb : List ℕ) (rng : ℕ → ℕ) (brightness contrast : ℚ)
    (st : List Color × List ℕ × ℕ) (x : ℕ) : List Color × List ℕ × ℕ :=
  if is_root.getD x false = false then st
  else
    let d := adjusted_depth.getD (y * width + x) 0
    let prop := if fg < d then
        tryPropagateFromNeighbors x y width st.2.1 is_root st.1 out_rgb
      else (none, st.2.1)
    match prop.1 with
    | some _ => (st.1, prop.2, st.2.2)
    | none =>
      let ck := if texture ≠ [] then
          (getTextureColor x y width height texture tw th tchan brightness contrast, st.2.2)
        else getRandomColor rng st.2.2
      (st.1.set x ck.1, prop.2, ck.2)

def assignColors (y width height : ℕ) (adjusted_depth : List ℚ) (fg : ℚ)
    (is_root : List Bool) (texture : List ℕ) (tw th tchan : ℕ)
    (out_rgb : List ℕ) (rng : ℕ → ℕ) (brightness contrast : ℚ)
    (p0 : List ℕ) (k0 : ℕ) : List Color × List ℕ × ℕ :=
  (List.range width).foldl
    (assignColorsStep y width height adjusted_depth fg is_root texture tw th
      tchan out_rgb rng brightness contrast)
    (List.replicate width ((0, 0, 0) : Color), p0, k0)

/-- `SIRDSGenerator::applyColors`: every pixel of the row receives its
root's colour; each `find` call path-compresses. -/
def applyColorsStep (y width : ℕ) (rootColor : List Color)
    (st : List ℕ × List ℕ) (x : ℕ) : List ℕ × List ℕ :=
  let f := ufFind st.2 x
  let c := rootColor.getD f.1 (0, 0, 0)
  let idx := (y * width + x) * 3
  (((st.1.set idx c.1).set (idx + 1) c.2.1).set (idx + 2) c.2.2, f.2)

def applyColors (y width : ℕ) (rootColor : List Color) (out0 : List ℕ)
    (p0 : List ℕ) : List ℕ × List ℕ :=
  (List.range width).foldl (applyColorsStep y width rootColor) (out0, p0)

/-- `SIRDSGenerator::processScanline`: reset, link, identify roots, assign
colours, apply colours.  Returns the updated output buffer and draw
counter (the union-find state is reset at the start of every scanline, so
it is not returned). -/
def processScanline (y width height : ℕ) (adjusted_depth : List ℚ)
    (separation_map : List ℤ) (texture : List ℕ) (tw th tchan : ℕ)
    (rng : ℕ → ℕ) (brightness contrast : ℚ) (fg : ℚ)
    (out0 : List ℕ) (k0 : ℕ) : List ℕ × ℕ :=
  let p1 := buildUnions y width adjusted_depth separation_map fg (ufReset width)
  let ir := identifyRoots width p1
  let ac := assignColors y width height adjusted_depth fg
    ir.1 texture tw th tchan out0 rng brightness contrast ir.2 k0
  let ap := applyColors y width ac.1 out0 ac.2.1
  (ap.1, ac.2.2)

/-- `SIRDSGenerator::smoothPixel`: centre weight 6 plus six neighbours
(up, down, left, right, up-left, down-right), the 12-weight sum divided by
`options->smoothWeight` and cast to `uint8_t`. -/
def smoothPixel (x y width : ℕ) (smoothWeight : ℚ) (out_rgb : List ℕ) : List ℕ :=
  [0, 1, 2].foldl (fun out (c : ℕ) =>
    let idx := (y * width + x) * 3
    let sum : ℕ := out.getD (idx + c) 0 * 6
      + out.getD (((y - 1) * width + x) * 3 + c) 0
      + out.getD (((y + 1) * width + x) * 3 + c) 0
      + out.getD ((y * width + (x - 1)) * 3 + c) 0
      + out.getD ((y * width + (x + 1)) * 3 + c) 0
      + out.getD (((y - 1) * width + (x - 1)) * 3 + c) 0
      + out.getD (((y + 1) * width + (x + 1)) * 3 + c) 0
    out.set (idx + c) (byteWrap ((sum : ℚ) / smoothWeight))) out_rgb

/-- `SIRDSGenerator::applyEdgeSmoothing`: interior pixels whose adjusted
depth exceeds `smoothThreshold` are smoothed in place, row-major order. -/
def applyEdgeSmoothing (adjusted_depth : List ℚ) (width height : ℕ)
    (smoothThreshold smoothWeight : ℚ) (out0 : List ℕ) : List ℕ :=
  (List.range' 1 (height - 1 - 1)).foldl (fun out y =>
    (List.range' 1 (width - 1 - 1)).foldl (fun out2 x =>
      let d := adjusted_depth.getD (y * width + x) 0
      if smoothThreshold < d then smoothPixel x y width smoothWeight out2
      else out2) out) out0

/-- `SIRDSGenerator::generateUnionFind`: the full pipeline for one image. -/
def generateUnionFind (powf : ℚ → ℚ → ℚ) (rng : ℕ → ℕ) (depth : List ℚ)
    (width height : ℕ) (eye_separation : ℤ) (texture : List ℕ)
    (tw th tchan : ℕ) (texture_brightness texture_contrast bg_separation : ℚ)
    (opts : OptionsM) : List ℕ :=
  let adjusted_depth := adjustDepthRange depth bg_separation
  let out0 : List ℕ := List.replicate (width * height * 3) 0
  let separation_map := calculateSeparationMap powf adjusted_depth width height
    eye_separation opts.depth_gamma
  let scan := (List.range height).foldl (fun st y =>
      processScanline y width height adjusted_depth separation_map texture
        tw th tchan rng texture_brightness texture_contrast
        opts.foreground_threshold st.1 st.2)
    (out0, 0)
  applyEdgeSmoothing adjusted_depth width height opts.smoothThreshold
    opts.smoothWeight scan.1

/-- `SIRDSGenerator::generate`: stores the options and delegates to the
union-find method (the only implemented one). -/
def generate (powf : ℚ → ℚ → ℚ) (rng : ℕ → ℕ) (depth : List ℚ)
    (width height : ℕ) (eye_separation : ℤ) (texture : List ℕ)
    (tw th tchan : ℕ) (texture_brightness texture_contrast bg_separation : ℚ)
    (opts : OptionsM) : List ℕ :=
  generateUnionFind powf rng depth width height eye_separation texture
    tw th tchan texture_brightness texture_contrast bg_separation opts

/-! ## Blue noise (`src/lib/BlueNoise.h`) -/

/-- The 8×8 Bayer dither matrix of `BlueNoise::generateRGB`. -/
def bayer8 : List ℕ :=
  [ 0, 32,  8, 40,  2, 34, 10, 42,
   48, 16, 56, 24, 50, 18, 58, 26,
   12, 44,  4, 36, 14, 46,  6, 38,
   60, 28, 52, 20, 62, 30, 54, 22,
    3, 35, 11, 43,  1, 33,  9, 41,
   51, 19, 59, 27, 49, 17, 57, 25,
   15, 47,  7, 39, 13, 45,  5, 37,
   63, 31, 55, 23, 61, 29, 53, 21]

/-- The `h32` hash of `BlueNoise::generateRGB`, on `uint32_t` modelled as
naturals mod 2^32. -/
def h32 (x0 : ℕ) : ℕ :=
  let x1 := Nat.xor x0 (x0 >>> 17)
  let x2 := (x1 * 0xED5AD4BB) % 2 ^ 32
  let x3 := Nat.xor x2 (x2 >>> 11)
  let x4 := (x3 * 0xAC4C1B51) % 2 ^ 32
  let x5 := Nat.xor x4 (x4 >>> 15)
  let x6 := (x5 * 0x31848BAB) % 2 ^ 32
  Nat.xor x6 (x6 >>> 14)

/-- `BlueNoise::generateRGB`: a pure function of (width, height, seed). -/
def blueNoiseRGB (width height : ℕ) (seed : ℕ) : List ℕ :=
  (List.range (width * height)).flatMap (fun i =>
    let y := i / width
    let x := i % width
    let b := bayer8.getD ((y % 8) * 8 + (x % 8)) 0
    let base := h32 (Nat.xor (Nat.xor ((x * 73856093) % 2 ^ 32)
      ((y * 19349663) % 2 ^ 32)) (seed % 2 ^ 32))
    let r := base % 256
    let g := (base >>> 8) % 256
    let bch := (base >>> 16) % 256
    let factor : ℚ := ((b : ℚ) + 1) / 64
    [byteOfQ ((r : ℚ) * factor), byteOfQ ((g : ℚ) * factor),
     byteOfQ ((bch : ℚ) * factor)])

/-! ## Depth map finalisation (`src/lib/DepthMapGenerator.h`)

A z-buffer entry is `none` when no triangle covered the pixel (the C++
buffer holds `+INF` there) and `some z` for a finite camera-space depth. -/

/-- `DepthMapGenerator::finalizeDepthMap`.  Scans for the finite min/max,
extends the background, and remaps; if no pixel is finite the zero-filled
buffer is returned as allocated (`std::vector<float> depth(w*h, 0.0f)`). -/
def finalizeDepthMap (zbuffer : List (Option ℚ)) (width height : ℕ)
    (depth_near depth_far bg_separation : ℚ) : List ℚ :=
  let finite := zbuffer.filterMap id
  match finite.min?, finite.max? with
  | some zmin, some zmax =>
    let extended_zmax := zmax + (zmax - zmin) * bg_separation
    let range0 := extended_zmax - zmin
    let range := if range0 < 1 / 100000000 then 1 else range0
    (List.range (width * height)).map (fun i =>
      match zbuffer.getD i none with
      | none => depth_far
      | some z => depth_near + (depth_far - depth_near) * ((z - zmin) / range))
  | _, _ => List.replicate (width * height) 0

/-! ## The uncalled `EdgeSmoother::applyEdgeSmoothing`
(`src/lib/EdgeSmoother.h`): a 3×3 mean blended with the original via
`alpha = 1 / max(1, smoothWeight)`, reading from a snapshot. -/

def edgeSmootherApply (adjusted_depth : List ℚ) (out_rgb : List ℕ)
    (smoothThreshold smoothWeight : ℚ) (width height : ℕ) : List ℕ :=
  if width < 3 ∨ height < 3 then out_rgb else
  let alpha : ℚ := 1 / max 1 smoothWeight
  let src := out_rgb
  (List.range' 1 (height - 1 - 1)).foldl (fun out y =>
    (List.range' 1 (width - 1 - 1)).foldl (fun out2 x =>
      let d := adjusted_depth.getD (y * width + x) 0
      if d ≤ smoothThreshold then out2 else
      let basePix := y * width + x
      let idxc := basePix * 3
      [0, 1, 2].foldl (fun o (c : ℕ) =>
        let sum : ℚ :=
            (src.getD ((basePix - width - 1) * 3 + c) 0 : ℕ)
          + (src.getD ((basePix - width) * 3 + c) 0 : ℕ)
          + (src.getD ((basePix - width + 1) * 3 + c) 0 : ℕ)
          + (src.getD ((basePix - 1) * 3 + c) 0 : ℕ)
          + (src.getD (basePix * 3 + c) 0 : ℕ)
          + (src.getD ((basePix + 1) * 3 + c) 0 : ℕ)
          + (src.getD ((basePix + width - 1) * 3 + c) 0 : ℕ)
          + (src.getD ((basePix + width) * 3 + c) 0 : ℕ)
          + (src.getD ((basePix + width + 1) * 3 + c) 0 : ℕ)
        let mean := sum / 9
        let orig : ℚ := (src.getD (idxc + c) 0 : ℕ)
        let blended := clampQ (orig * (1 - alpha) + mean * alpha) 0 255
        o.set (idxc + c) (truncQ blended).toNat) out2) out) out_rgb

/-! ## Claim theorems -/

theorem range_map_getD {α : Type} (n : ℕ) (f : ℕ → α) (d : α) (i : ℕ)
    (hi : i < n) : ((List.range n).map f).getD i d = f i := by
  simp [List.getD, List.getElem?_map, List.getElem?_range hi]

theorem clampI_bounds (v lo hi : ℤ) (h : lo ≤ hi) :
    lo ≤ clampI v lo hi ∧ clampI v lo hi ≤ hi := by
  unfold clampI
  split
  · omega
  · split <;> omega

/-- C4: each entry of the separation map equals
`clamp(round(min_sep + (max_sep - min_sep) * (1 - d)^depth_gamma * sep_scale), min_sep, max_sep)`
with `sep_scale = 1 + (|d - focus_depth| * 2)^1.5 * 0.5`, `focus_depth = 0.5`,
`min_sep = 3` and `max_sep = eye_separation`; consequently every computed
separation value lies in `[min_separation, eye_separation]` inclusive, for
every adjusted depth `d` in [0,1] and every `depth_gamma > 0` (the power
function `powf` models `std::pow` and is arbitrary). -/
theorem separation_map_formula_and_bounds
    (powf : ℚ → ℚ → ℚ) (adjusted_depth : List ℚ) (width height : ℕ)
    (eye_separation : ℤ) (gamma : ℚ)
    (hsep : 3 ≤ eye_separation)
    (hd : ∀ d ∈ adjusted_depth, 0 ≤ d ∧ d ≤ 1)
    (hgamma : 0 < gamma)
    (i : ℕ) (hi : i < width * height) :
    (calculateSeparationMap powf adjusted_depth width height eye_separation gamma).getD i 0
      = clampI (roundQ (3 + ((eye_separation : ℚ) - 3) *
          powf (1 - adjusted_depth.getD i 0) gamma *
          (1 + powf (|adjusted_depth.getD i 0 - 1/2| * 2) (3/2) * (1/2))))
          3 eye_separation
    ∧ 3 ≤ (calculateSeparationMap powf adjusted_depth width height eye_separation gamma).getD i 0
    ∧ (calculateSeparationMap powf adjusted_depth width height eye_separation gamma).getD i 0
        ≤ eye_separation := by
  have hentry : (calculateSeparationMap powf adjusted_depth width height
      eye_separation gamma).getD i 0 =
      sepValue powf (adjusted_depth.getD i 0) gamma eye_separation := by
    unfold calculateSeparationMap
    exact range_map_getD (width * height) _ 0 i hi
  have hform : sepValue powf (adjusted_depth.getD i 0) gamma eye_separation =
      clampI (roundQ (3 + ((eye_separation : ℚ) - 3) *
        powf (1 - adjusted_depth.getD i 0) gamma *
        (1 + powf (|adjusted_depth.getD i 0 - 1/2| * 2) (3/2) * (1/2))))
        3 eye_separation := by
    unfold sepValue sepScale
    norm_num
  have hb := clampI_bounds (roundQ (3 + ((eye_separation : ℚ) - 3) *
    powf (1 - adjusted_depth.getD i 0) gamma *
    (1 + powf (|adjusted_depth.getD i 0 - 1/2| * 2) (3/2) * (1/2))))
    3 eye_separation hsep
  refine ⟨by rw [hentry, hform], ?_, ?_⟩
  · rw [hentry, hform]; exact hb.1
  · rw [hentry, hform]; exact hb.2

/-- Witness for C4 at a concrete input. -/
theorem separation_map_formula_and_bounds_witness :
    ((3 : ℤ) ≤ 10 ∧ (∀ d ∈ [(1/2 : ℚ)], 0 ≤ d ∧ d ≤ 1) ∧ (0 : ℚ) < 1 ∧ (0 : ℕ) < 1 * 1) ∧
    (3 ≤ (calculateSeparationMap (fun _ _ => 1) [(1/2 : ℚ)] 1 1 10 1).getD 0 0 ∧
     (calculateSeparationMap (fun _ _ => 1) [(1/2 : ℚ)] 1 1 10 1).getD 0 0 ≤ 10) :=
  ⟨⟨by decide, by intro d hd; simp at hd; subst hd; constructor <;> norm_num,
    by norm_num, by decide⟩,
   (separation_map_formula_and_bounds (fun _ _ => 1) [(1/2 : ℚ)] 1 1 10 1
      (by decide)
      (by intro d hd; simp at hd; subst hd; constructor <;> norm_num)
      (by norm_num) 0 (by decide)).2⟩

/-- C7 counterexample: a 1×1 z-buffer with no covered pixel and
`depth_far = 1/10`.  The returned buffer is `[0]`, not `[depth_far]`: the
degenerate early return hands back the zero-initialised allocation and
never runs the loop that assigns `depth_far` to uncovered pixels. -/
theorem finalize_degenerate_counterexample :
    finalizeDepthMap [none] 1 1 (3/4) (1/10) (3/10) = [0] ∧
    finalizeDepthMap [none] 1 1 (3/4) (1/10) (3/10) ≠ [(1/10 : ℚ)] := by
  with_unfolding_all decide

/-- C7 (amended): if rasterisation covers zero pixels (every z-buffer
entry non-finite), `finalizeDepthMap` returns, without error, the
zero-filled buffer of size width·height — which coincides with a uniform
`depth_far` buffer exactly when `depth_far = 0` — and downstream stages
receive a well-formed buffer of the right size. -/
theorem finalize_degenerate_returns_zeros (zbuffer : List (Option ℚ))
    (width height : ℕ) (depth_near depth_far bg_separation : ℚ)
    (hz : ∀ z ∈ zbuffer, z = none) :
    finalizeDepthMap zbuffer width height depth_near depth_far bg_separation =
      List.replicate (width * height) 0 := by
  unfold finalizeDepthMap
  have hnil : zbuffer.filterMap id = [] := by
    rw [List.filterMap_eq_nil_iff]
    intro a ha
    exact hz a ha
  rw [hnil]
  rfl

/-- Witness for C7 (amended) at a concrete degenerate z-buffer. -/
theorem finalize_degenerate_returns_zeros_witness :
    (∀ z ∈ [(none : Option ℚ), none], z = none) ∧
    finalizeDepthMap [none, none] 2 1 (3/4) (1/10) (3/10) =
      List.replicate (2 * 1) 0 :=
  ⟨by simp, finalize_degenerate_returns_zeros [none, none] 2 1 (3/4) (1/10) (3/10)
    (by simp)⟩

/-- C6: at a 3×3 image that is uniformly (200,200,200) with adjusted depth
0.8 everywhere (above the default `smoothThreshold` 0.75) and the default
`smoothWeight` 6, the executed smoothing pass (`SIRDSGenerator::smoothPixel`)
computes the 12-weight sum 2400 and divides by the raw `smoothWeight`,
giving 2400/6 = 400 — outside [0,255]; the byte stored after the (undefined
in C++) float-to-uint8 cast is 144.  The claimed blend — implemented by the
never-called `EdgeSmoother::applyEdgeSmoothing` with
`alpha = 1/max(1, smoothWeight)` — leaves the centre at 200 and stays in
[0,255]. -/
theorem edge_smoothing_divergence :
    (applyEdgeSmoothing (List.replicate 9 (4/5 : ℚ)) 3 3 (3/4) 6
        (List.replicate 27 200)).getD 12 0 = 144 ∧
    truncQ ((2400 : ℚ) / 6) = 400 ∧
    (edgeSmootherApply (List.replicate 9 (4/5 : ℚ)) (List.replicate 27 200)
        (3/4) 6 3 3).getD 12 0 = 200 := by
  with_unfolding_all decide

/-- C1: a non-degenerate 3×1 depth map, uniformly 0.95 (foreground), no
texture, `eye_separation = 3`, fresh-colour stream constantly 9,
`bg_separation = 0`, default options.  Pixels 1 and 2 are their own roots,
take the colour-propagation path, and since the propagated colour is never
stored into `rootColor`, their classes are painted with the
zero-initialised colour: the output retains (0,0,0) pixels. -/
theorem coverage_zero_pixels_remain :
    generate (fun _ _ => 0) (fun _ => 9) [19/20, 19/20, 19/20] 3 1 3 []
      0 0 0 1 1 0 {} = [9, 9, 9, 0, 0, 0, 0, 0, 0] := by
  with_unfolding_all decide

/-- C2: a 2×1 depth map, uniformly 0.95, no texture, stream constantly 7.
At the second pixel (a root above `foreground_threshold`) propagation from
the left neighbour succeeds and yields (7,7,7) — first conjunct — but the
final colour of that pixel is (0,0,0), because `assignColors` stores the
fresh colour only in the non-propagated branch and discards the propagated
one. -/
theorem propagated_color_not_applied :
    (tryPropagateFromNeighbors 1 0 2 (ufReset 2) [true, true]
        [((7, 7, 7) : Color), ((0, 0, 0) : Color)]
        (List.replicate 6 0)).1 = some ((7, 7, 7) : Color) ∧
    generate (fun _ _ => 0) (fun _ => 7) [19/20, 19/20] 2 1 3 []
      0 0 0 1 1 0 {} = [7, 7, 7, 0, 0, 0] := by
  with_unfolding_all decide

/-- C3 counterexample: with no texture and `rng_seed = 42` versus
`rng_seed = 43`, the generator output is identical (the seed option is
never consulted), while the blue-noise fields for seeds 42 and 43 differ
at the same pixel — so the fresh colour cannot be "drawn from a blue-noise
field seeded per the configured RNG policy" for both runs. -/
theorem fresh_color_not_blue_noise :
    generate (fun _ _ => 0) (fun _ => 5) [0] 1 1 3 [] 0 0 0 1 1 0
        { rng_seed := 42 } =
      generate (fun _ _ => 0) (fun _ => 5) [0] 1 1 3 [] 0 0 0 1 1 0
        { rng_seed := 43 } ∧
    blueNoiseRGB 1 1 42 ≠ blueNoiseRGB 1 1 43 := by
  with_unfolding_all decide

/-- C3 (amended): when a root receives a fresh colour, it is sampled from
the user texture (bilinear, with brightness/contrast) when one is
provided, and otherwise is the next RGB triple of the internal fixed-seed
(123456) generator stream; the blue-noise field and the `rng_seed` option
play no part — the output is invariant under arbitrary changes of
`rng_seed`.  (Conjunct 1: full generality of the seed-invariance;
conjuncts 2 and 3: the two fresh-colour sources, exhibited on a 1×1 image
where no propagation can occur, with the stream, texture bytes,
brightness and contrast all arbitrary.) -/
theorem fresh_color_sources (powf : ℚ → ℚ → ℚ) (rng : ℕ → ℕ)
    (depth : List ℚ) (width height : ℕ) (eye_separation : ℤ)
    (texture : List ℕ) (tw th tchan : ℕ) (brightness contrast bg : ℚ)
    (o : OptionsM) (s1 s2 : ℤ) (a b c : ℕ) :
    generate powf rng depth width height eye_separation texture tw th tchan
        brightness contrast bg { o with rng_seed := s1 } =
      generate powf rng depth width height eye_separation texture tw th tchan
        brightness contrast bg { o with rng_seed := s2 } ∧
    generate (fun _ _ => 0) rng [0] 1 1 3 [] 0 0 0 brightness contrast 0 {} =
      [rng 0, rng 1, rng 2] ∧
    generate (fun _ _ => 0) rng [0] 1 1 3 [a, b, c] 1 1 3 brightness contrast 0 {} =
      [(getTextureColor 0 0 1 1 [a, b, c] 1 1 3 brightness contrast).1,
       (getTextureColor 0 0 1 1 [a, b, c] 1 1 3 brightness contrast).2.1,
       (getTextureColor 0 0 1 1 [a, b, c] 1 1 3 brightness contrast).2.2] := by
  refine ⟨rfl, ?_, ?_⟩
  · with_unfolding_all rfl
  · with_unfolding_all rfl

/-- C8: determinism.  The generator is a pure function: two calls with
identical depth map, dimensions, eye separation, texture (and its
dimensions/channels), brightness, contrast, background separation and
options — sharing the platform's `pow` and the fixed-seed (123456)
generator stream, which is a compile-time constant — produce byte-identical
output buffers; the hypothesis `0 ≤ rng_seed` mirrors the claim's "fixed
RNG seed ≥ 0" (the output does not in fact depend on it). -/
theorem generate_deterministic (powf : ℚ → ℚ → ℚ) (rng : ℕ → ℕ)
    (d1 d2 : List ℚ) (w1 w2 h1 h2 : ℕ) (e1 e2 : ℤ) (t1 t2 : List ℕ)
    (tw1 tw2 th1 th2 tc1 tc2 : ℕ) (br1 br2 ct1 ct2 bg1 bg2 : ℚ)
    (o1 o2 : OptionsM)
    (hseed : 0 ≤ o1.rng_seed)
    (hd : d1 = d2) (hw : w1 = w2) (hh : h1 = h2) (he : e1 = e2)
    (ht : t1 = t2) (htw : tw1 = tw2) (hth : th1 = th2) (htc : tc1 = tc2)
    (hbr : br1 = br2) (hct : ct1 = ct2) (hbg : bg1 = bg2) (ho : o1 = o2) :
    generate powf rng d1 w1 h1 e1 t1 tw1 th1 tc1 br1 ct1 bg1 o1 =
      generate powf rng d2 w2 h2 e2 t2 tw2 th2 tc2 br2 ct2 bg2 o2 := by
  subst hd hw hh he ht htw hth htc hbr hct hbg ho
  rfl

/-- Witness for C8 at a concrete input with `rng_seed = 7 ≥ 0`. -/
theorem generate_deterministic_witness :
    (0 ≤ ({ rng_seed := 7 } : OptionsM).rng_seed) ∧
    generate (fun _ _ => 0) (fun _ => 5) [0] 1 1 3 [] 0 0 0 1 1 0
        { rng_seed := 7 } =
      generate (fun _ _ => 0) (fun _ => 5) [0] 1 1 3 [] 0 0 0 1 1 0
        { rng_seed := 7 } :=
  ⟨by decide,
   generate_deterministic (fun _ _ => 0) (fun _ => 5) [0] [0] 1 1 1 1 3 3
     [] [] 0 0 0 0 0 0 1 1 1 1 0 0 { rng_seed := 7 } { rng_seed := 7 }
     (by decide) rfl rfl rfl rfl rfl rfl rfl rfl rfl rfl rfl rfl⟩

theorem clampQ_of_mem (v lo hi : ℚ) (h0 : lo ≤ v) (h1 : v ≤ hi) :
    clampQ v lo hi = v := by
  rw [clampQ, if_neg (not_lt.mpr h0), if_neg (not_lt.mpr h1)]

theorem clampI_of_mem (v lo hi : ℤ) (h0 : lo ≤ v) (h1 : v ≤ hi) :
    clampI v lo hi = v := by
  rw [clampI, if_neg (not_lt.mpr h0), if_neg (not_lt.mpr h1)]

theorem truncQ_of_nonneg (q : ℚ) (h : 0 ≤ q) : truncQ q = ⌊q⌋ := by
  rw [truncQ, if_pos h]

theorem fmodQ_of_lt (x y : ℚ) (h0 : 0 ≤ x) (h1 : x < y) : fmodQ x y = x := by
  have hy : 0 < y := lt_of_le_of_lt h0 h1
  have hq0 : 0 ≤ x / y := div_nonneg h0 (le_of_lt hy)
  have hq1 : x / y < 1 := (div_lt_one hy).mpr h1
  have : truncQ (x / y) = 0 := by
    rw [truncQ_of_nonneg _ hq0]
    exact Int.floor_eq_zero_iff.mpr ⟨hq0, hq1⟩
  rw [fmodQ, this]
  push_cast
  ring

theorem getTexel_agree (texture : List ℕ) (tw th tchan : ℕ) (x y : ℤ) (c : ℕ)
    (hx0 : 0 ≤ x) (hx1 : x ≤ (tw : ℤ) - 1) (hy0 : 0 ≤ y) (hy1 : y ≤ (th : ℤ) - 1) :
    getTexelClamped texture tw th tchan x y c = getTexelTiled texture tw tchan x y c := by
  rw [getTexelClamped, getTexelTiled]
  rw [clampI_of_mem x 0 _ hx0 hx1, clampI_of_mem y 0 _ hy0 hy1]

/-- C9: for every texture and every coordinate strictly inside the
texture (`texX ∈ [0, tw−1)`, `texY ∈ [0, th−1)`), the clamped sampler
`sampleBilinear` and the wrapped sampler `sampleBilinearTiled` return
identical RGB results — clamping, wrapping, and the neighbour-index
adjustments are all no-ops in the interior, leaving the same 2×2 bilinear
interpolation. -/
theorem samplers_agree_interior (texture : List ℕ) (tw th tchan : ℕ)
    (texX texY : ℚ) (hx0 : 0 ≤ texX) (hx1 : texX < (tw : ℚ) - 1)
    (hy0 : 0 ≤ texY) (hy1 : texY < (th : ℚ) - 1) :
    sampleBilinear texture tw th tchan texX texY =
      sampleBilinearTiled texture tw th tchan texX texY := by
  have htw1 : (1 : ℚ) < (tw : ℚ) := by linarith
  have hth1 : (1 : ℚ) < (th : ℚ) := by linarith
  -- the clamped side: the initial clamps are no-ops
  have hcx : clampQ texX 0 ((tw : ℚ) - 1) = texX :=
    clampQ_of_mem _ _ _ hx0 (le_of_lt hx1)
  have hcy : clampQ texY 0 ((th : ℚ) - 1) = texY :=
    clampQ_of_mem _ _ _ hy0 (le_of_lt hy1)
  -- floor bounds
  have hfx0 : (0 : ℤ) ≤ ⌊texX⌋ := Int.floor_nonneg.mpr hx0
  have hfy0 : (0 : ℤ) ≤ ⌊texY⌋ := Int.floor_nonneg.mpr hy0
  have hfx1 : ⌊texX⌋ < (tw : ℤ) - 1 := by
    rw [Int.floor_lt]
    push_cast
    exact hx1
  have hfy1 : ⌊texY⌋ < (th : ℤ) - 1 := by
    rw [Int.floor_lt]
    push_cast
    exact hy1
  -- clamped side neighbour and re-clamp are no-ops
  have hminx : min (⌊texX⌋ + 1) ((tw : ℤ) - 1) = ⌊texX⌋ + 1 :=
    min_eq_left (by omega)
  have hminy : min (⌊texY⌋ + 1) ((th : ℤ) - 1) = ⌊texY⌋ + 1 :=
    min_eq_left (by omega)
  have hclx : clampI ⌊texX⌋ 0 ((tw : ℤ) - 1) = ⌊texX⌋ :=
    clampI_of_mem _ _ _ hfx0 (by omega)
  have hcly : clampI ⌊texY⌋ 0 ((th : ℤ) - 1) = ⌊texY⌋ :=
    clampI_of_mem _ _ _ hfy0 (by omega)
  -- tiled side: fmod and the negativity fixup are no-ops
  have hmodx : fmodQ texX (tw : ℚ) = texX :=
    fmodQ_of_lt _ _ hx0 (by linarith)
  have hmody : fmodQ texY (th : ℚ) = texY :=
    fmodQ_of_lt _ _ hy0 (by linarith)
  have hposx : ¬ texX < 0 := not_lt.mpr hx0
  have hposy : ¬ texY < 0 := not_lt.mpr hy0
  -- tiled side: truncation is the floor, and the wrap is a no-op
  have htrx : truncQ texX = ⌊texX⌋ := truncQ_of_nonneg _ hx0
  have htry : truncQ texY = ⌊texY⌋ := truncQ_of_nonneg _ hy0
  have hwx : Int.tmod (⌊texX⌋ + 1) (tw : ℤ) = ⌊texX⌋ + 1 :=
    Int.tmod_eq_of_lt (by omega) (by omega)
  have hwy : Int.tmod (⌊texY⌋ + 1) (th : ℤ) = ⌊texY⌋ + 1 :=
    Int.tmod_eq_of_lt (by omega) (by omega)
  -- the four sample points agree between the two texel fetchers
  have hT00 := fun c => getTexel_agree texture tw th tchan ⌊texX⌋ ⌊texY⌋ c
    hfx0 (by omega) hfy0 (by omega)
  have hT10 := fun c => getTexel_agree texture tw th tchan (⌊texX⌋ + 1) ⌊texY⌋ c
    (by omega) (by omega) hfy0 (by omega)
  have hT01 := fun c => getTexel_agree texture tw th tchan ⌊texX⌋ (⌊texY⌋ + 1) c
    hfx0 (by omega) (by omega) (by omega)
  have hT11 := fun c => getTexel_agree texture tw th tchan (⌊texX⌋ + 1) (⌊texY⌋ + 1) c
    (by omega) (by omega) (by omega) (by omega)
  simp only [sampleBilinear, sampleBilinearTiled, hcx, hcy, hminx, hminy,
    hclx, hcly, hmodx, hmody, if_neg hposx, if_neg hposy, htrx, htry,
    hwx, hwy, hT00, hT10, hT01, hT11]

/-- Witness for C9 at a concrete interior coordinate of a 3×2 texture. -/
theorem samplers_agree_interior_witness :
    ((0 : ℚ) ≤ 1/2 ∧ (1/2 : ℚ) < (3 : ℚ) - 1 ∧ (0 : ℚ) ≤ 1/4 ∧ (1/4 : ℚ) < (2 : ℚ) - 1) ∧
    sampleBilinear [10, 20, 30, 40, 50, 60, 70, 80, 90, 100, 110, 120,
        130, 140, 150, 160, 170, 180] 3 2 3 (1/2) (1/4) =
      sampleBilinearTiled [10, 20, 30, 40, 50, 60, 70, 80, 90, 100, 110, 120,
        130, 140, 150, 160, 170, 180] 3 2 3 (1/2) (1/4) :=
  ⟨⟨by norm_num, by norm_num, by norm_num, by norm_num⟩,
   samplers_agree_interior _ 3 2 3 (1/2) (1/4)
     (by norm_num) (by norm_num) (by norm_num) (by norm_num)⟩

/-- C10: after `reset(n)` and any sequence of `unite` calls on indices in
[0,n), the parent array encodes a forest: every entry stays in [0,n),
following parent links from any element reaches a self-parented root
within n steps, and the recursive `find` is total under this invariant —
with fuel n it returns the semantic root (itself a root), and giving it
any larger recursion budget returns the same result. -/
theorem unionfind_forest_and_find_total (n : ℕ) (pairs : List (ℕ × ℕ))
    (hmem : ∀ ab ∈ pairs, ab.1 < n ∧ ab.2 < n) :
    (uniteList (ufReset n) pairs).length = n ∧
    (∀ i, i < n → (uniteList (ufReset n) pairs).getD i 0 < n) ∧
    (∀ x, ∃ k, k ≤ n ∧ isRootP (uniteList (ufReset n) pairs)
      (iterP (uniteList (ufReset n) pairs) k x)) ∧
    (∀ x, (ufFind (uniteList (ufReset n) pairs) x).1 =
        rootD (uniteList (ufReset n) pairs) x ∧
      isRootP (uniteList (ufReset n) pairs)
        (rootD (uniteList (ufReset n) pairs) x)) ∧
    (∀ x fuel, n ≤ fuel →
      (findAux fuel (uniteList (ufReset n) pairs) x).1 =
        (findAux n (uniteList (ufReset n) pairs) x).1) := by
  have hWF0 := ufReset_WF n
  have hmem' : ∀ ab ∈ pairs, ab.1 < (ufReset n).length ∧ ab.2 < (ufReset n).length := by
    intro ab hab
    rw [ufReset_length]
    exact hmem ab hab
  obtain ⟨hlen, hWF, _, _⟩ := uniteList_spec pairs (ufReset n) hWF0 hmem'
  rw [ufReset_length] at hlen
  set p := uniteList (ufReset n) pairs with hp
  refine ⟨hlen, ?_, ?_, ?_, ?_⟩
  · intro i hi
    have := hWF.1 i (by rw [hlen]; exact hi)
    rwa [hlen] at this
  · intro x
    refine ⟨n, le_refl n, ?_⟩
    have hr := rootD_isRoot p hWF x
    rw [rootD] at hr
    rwa [hlen] at hr
  · intro x
    exact ⟨(ufFind_spec p hWF x).1, rootD_isRoot p hWF x⟩
  · intro x fuel hf
    have hex1 : ∃ k, k ≤ fuel ∧ isRootP p (iterP p k x) :=
      ⟨p.length, by rw [hlen]; omega, rootD_isRoot p hWF x⟩
    have hex2 : ∃ k, k ≤ n ∧ isRootP p (iterP p k x) :=
      ⟨p.length, by rw [hlen], rootD_isRoot p hWF x⟩
    rw [(findAux_spec fuel p x hWF hex1).1, (findAux_spec n p x hWF hex2).1]

/-- Witness for C10 with n = 4 and the unite sequence (0,2),(1,3),(2,3). -/
theorem unionfind_forest_and_find_total_witness :
    (∀ ab ∈ [((0 : ℕ), (2 : ℕ)), (1, 3), (2, 3)], ab.1 < 4 ∧ ab.2 < 4) ∧
    (uniteList (ufReset 4) [(0, 2), (1, 3), (2, 3)]).length = 4 :=
  ⟨by decide,
   (unionfind_forest_and_find_total 4 [(0, 2), (1, 3), (2, 3)] (by decide)).1⟩

/-! ### Parent-state preservation through the colour-assignment phases
(every mutation is a path-compressing `find`, which is observationally
transparent on `rootD`). -/

theorem tryPropagateDiag_preserve (x y width : ℕ) (p : List ℕ)
    (is_root : List Bool) (out : List ℕ) (hWF : WFuf p) :
    WFuf (tryPropagateDiag x y width p is_root out).2 ∧
    (∀ z, rootD (tryPropagateDiag x y width p is_root out).2 z = rootD p z) ∧
    (tryPropagateDiag x y width p is_root out).2.length = p.length := by
  by_cases hcase : 0 < x ∧ 0 < y
  · have hres : (tryPropagateDiag x y width p is_root out).2 = (ufFind p (x - 1)).2 := by
      simp only [tryPropagateDiag, if_pos hcase]
      split <;> rfl
    obtain ⟨_, h2, h3, h4⟩ := ufFind_spec p hWF (x - 1)
    rw [hres]
    exact ⟨h3, h4, h2⟩
  · have hres : (tryPropagateDiag x y width p is_root out).2 = p := by
      simp only [tryPropagateDiag, if_neg hcase]
    rw [hres]
    exact ⟨hWF, fun z => rfl, rfl⟩

theorem tryPropagateAbove_preserve (x y width : ℕ) (p : List ℕ)
    (is_root : List Bool) (out : List ℕ) (hWF : WFuf p) :
    WFuf (tryPropagateAbove x y width p is_root out).2 ∧
    (∀ z, rootD (tryPropagateAbove x y width p is_root out).2 z = rootD p z) ∧
    (tryPropagateAbove x y width p is_root out).2.length = p.length := by
  by_cases hcase : 0 < y
  · obtain ⟨_, h2, h3, h4⟩ := ufFind_spec p hWF x
    by_cases hcond : (ufFind p x).1 ≠ x ∧ is_root.getD (ufFind p x).1 false
    · have hres : (tryPropagateAbove x y width p is_root out).2 = (ufFind p x).2 := by
        simp only [tryPropagateAbove, if_pos hcase, if_pos hcond]
      rw [hres]
      exact ⟨h3, h4, h2⟩
    · have hres : (tryPropagateAbove x y width p is_root out).2 =
          (tryPropagateDiag x y width (ufFind p x).2 is_root out).2 := by
        simp only [tryPropagateAbove, if_pos hcase, if_neg hcond]
      obtain ⟨hw, hr, hl⟩ := tryPropagateDiag_preserve x y width (ufFind p x).2 is_root out h3
      rw [hres]
      exact ⟨hw, fun z => (hr z).trans (h4 z), hl.trans h2⟩
  · have hres : (tryPropagateAbove x y width p is_root out).2 =
        (tryPropagateDiag x y width p is_root out).2 := by
      simp only [tryPropagateAbove, if_neg hcase]
    obtain ⟨hw, hr, hl⟩ := tryPropagateDiag_preserve x y width p is_root out hWF
    rw [hres]
    exact ⟨hw, hr, hl⟩

theorem tryPropagateFromNeighbors_preserve (x y width : ℕ) (p : List ℕ)
    (is_root : List Bool) (rootColor : List Color) (out : List ℕ) (hWF : WFuf p) :
    WFuf (tryPropagateFromNeighbors x y width p is_root rootColor out).2 ∧
    (∀ z, rootD (tryPropagateFromNeighbors x y width p is_root rootColor out).2 z = rootD p z) ∧
    (tryPropagateFromNeighbors x y width p is_root rootColor out).2.length = p.length := by
  by_cases hcase : 0 < x
  · obtain ⟨_, h2, h3, h4⟩ := ufFind_spec p hWF (x - 1)
    by_cases hcond : (ufFind p (x - 1)).1 ≠ x ∧ is_root.getD (ufFind p (x - 1)).1 false
    · have hres : (tryPropagateFromNeighbors x y width p is_root rootColor out).2 =
          (ufFind p (x - 1)).2 := by
        simp only [tryPropagateFromNeighbors, if_pos hcase, if_pos hcond]
      rw [hres]
      exact ⟨h3, h4, h2⟩
    · have hres : (tryPropagateFromNeighbors x y width p is_root rootColor out).2 =
          (tryPropagateAbove x y width (ufFind p (x - 1)).2 is_root out).2 := by
        simp only [tryPropagateFromNeighbors, if_pos hcase, if_neg hcond]
      obtain ⟨hw, hr, hl⟩ := tryPropagateAbove_preserve x y width (ufFind p (x - 1)).2 is_root out h3
      rw [hres]
      exact ⟨hw, fun z => (hr z).trans (h4 z), hl.trans h2⟩
  · have hres : (tryPropagateFromNeighbors x y width p is_root rootColor out).2 =
        (tryPropagateAbove x y width p is_root out).2 := by
      simp only [tryPropagateFromNeighbors, if_neg hcase]
    obtain ⟨hw, hr, hl⟩ := tryPropagateAbove_preserve x y width p is_root out hWF
    rw [hres]
    exact ⟨hw, hr, hl⟩

theorem identifyRoots_fold_preserve (xs : List ℕ) :
    ∀ (st : List Bool × List ℕ), WFuf st.2 →
    WFuf (xs.foldl identifyRootsStep st).2 ∧
    (∀ z, rootD (xs.foldl identifyRootsStep st).2 z = rootD st.2 z) ∧
    (xs.foldl identifyRootsStep st).2.length = st.2.length := by
  induction xs with
  | nil => intro st hWF; exact ⟨hWF, fun z => rfl, rfl⟩
  | cons x xs ih =>
    intro st hWF
    obtain ⟨_, h2, h3, h4⟩ := ufFind_spec st.2 hWF x
    have hstep : (identifyRootsStep st x).2 = (ufFind st.2 x).2 := rfl
    obtain ⟨hw, hr, hl⟩ := ih (identifyRootsStep st x) (by rw [hstep]; exact h3)
    simp only [List.foldl_cons]
    refine ⟨hw, ?_, ?_⟩
    · intro z
      rw [hr z, hstep, h4 z]
    · rw [hl, hstep, h2]

theorem assignColorsStep_parent (y width height : ℕ) (adjusted_depth : List ℚ)
    (fg : ℚ) (is_root : List Bool) (texture : List ℕ) (tw th tchan : ℕ)
    (out_rgb : List ℕ) (rng : ℕ → ℕ) (brightness contrast : ℚ)
    (st : List Color × List ℕ × ℕ) (x : ℕ) (hWF : WFuf st.2.1) :
    WFuf (assignColorsStep y width height adjusted_depth fg is_root texture
      tw th tchan out_rgb rng brightness contrast st x).2.1 ∧
    (∀ z, rootD (assignColorsStep y width height adjusted_depth fg is_root texture
      tw th tchan out_rgb rng brightness contrast st x).2.1 z = rootD st.2.1 z) ∧
    (assignColorsStep y width height adjusted_depth fg is_root texture
      tw th tchan out_rgb rng brightness contrast st x).2.1.length = st.2.1.length := by
  by_cases hroot : is_root.getD x false = false
  · have hres : assignColorsStep y width height adjusted_depth fg is_root texture
        tw th tchan out_rgb rng brightness contrast st x = st := by
      simp only [assignColorsStep, if_pos hroot]
    rw [hres]
    exact ⟨hWF, fun z => rfl, rfl⟩
  · by_cases hfg : fg < adjusted_depth.getD (y * width + x) 0
    · obtain ⟨hw, hr, hl⟩ := tryPropagateFromNeighbors_preserve x y width st.2.1
        is_root st.1 out_rgb hWF
      have hres : (assignColorsStep y width height adjusted_depth fg is_root texture
          tw th tchan out_rgb rng brightness contrast st x).2.1 =
          (tryPropagateFromNeighbors x y width st.2.1 is_root st.1 out_rgb).2 := by
        simp only [assignColorsStep, if_neg hroot, if_pos hfg]
        rcases hm : (tryPropagateFromNeighbors x y width st.2.1 is_root st.1 out_rgb).1 with _ | c
        · simp only []
        · simp only []
      rw [hres]
      exact ⟨hw, hr, hl⟩
    · have hres : (assignColorsStep y width height adjusted_depth fg is_root texture
          tw th tchan out_rgb rng brightness contrast st x).2.1 = st.2.1 := by
        simp only [assignColorsStep, if_neg hroot, if_neg hfg]
      rw [hres]
      exact ⟨hWF, fun z => rfl, rfl⟩

theorem assignColors_fold_parent (y width height : ℕ) (adjusted_depth : List ℚ)
    (fg : ℚ) (is_root : List Bool) (texture : List ℕ) (tw th tchan : ℕ)
    (out_rgb : List ℕ) (rng : ℕ → ℕ) (brightness contrast : ℚ)
    (xs : List ℕ) :
    ∀ (st : List Color × List ℕ × ℕ), WFuf st.2.1 →
    WFuf ((xs.foldl (assignColorsStep y width height adjusted_depth fg is_root
      texture tw th tchan out_rgb rng brightness contrast) st)).2.1 ∧
    (∀ z, rootD ((xs.foldl (assignColorsStep y width height adjusted_depth fg is_root
      texture tw th tchan out_rgb rng brightness contrast) st)).2.1 z = rootD st.2.1 z) ∧
    ((xs.foldl (assignColorsStep y width height adjusted_depth fg is_root
      texture tw th tchan out_rgb rng brightness contrast) st)).2.1.length = st.2.1.length := by
  induction xs with
  | nil => intro st hWF; exact ⟨hWF, fun z => rfl, rfl⟩
  | cons x xs ih =>
    intro st hWF
    obtain ⟨hw1, hr1, hl1⟩ := assignColorsStep_parent y width height adjusted_depth
      fg is_root texture tw th tchan out_rgb rng brightness contrast st x hWF
    obtain ⟨hw, hr, hl⟩ := ih _ hw1
    simp only [List.foldl_cons]
    refine ⟨hw, ?_, ?_⟩
    · intro z
      rw [hr z, hr1 z]
    · rw [hl, hl1]

/-- Projection of one channel of a colour triple (0 = red, 1 = green,
2 = blue), used to state what `applyColors` writes at each byte. -/
def colorComp (col : Color) (c : ℕ) : ℕ :=
  if c = 0 then col.1 else if c = 1 then col.2.1 else col.2.2

theorem applyColors_fold_spec (y width : ℕ) (rc : List Color) (out0 p0 : List ℕ)
    (hWF : WFuf p0) : ∀ (m : ℕ),
    WFuf ((List.range m).foldl (applyColorsStep y width rc) (out0, p0)).2 ∧
    (∀ z, rootD ((List.range m).foldl (applyColorsStep y width rc) (out0, p0)).2 z
      = rootD p0 z) ∧
    ((List.range m).foldl (applyColorsStep y width rc) (out0, p0)).2.length = p0.length ∧
    ((List.range m).foldl (applyColorsStep y width rc) (out0, p0)).1.length = out0.length ∧
    (∀ x, x < m → ∀ c, c < 3 → (y * width + x) * 3 + c < out0.length →
      ((List.range m).foldl (applyColorsStep y width rc) (out0, p0)).1.getD
          ((y * width + x) * 3 + c) 0 =
        colorComp (rc.getD (rootD p0 x) (0, 0, 0)) c) := by
  intro m
  induction m with
  | zero =>
    exact ⟨hWF, fun z => rfl, rfl, rfl, fun x hx => absurd hx (Nat.not_lt_zero x)⟩
  | succ m ih =>
    obtain ⟨ihWF, ihroot, ihplen, iholen, ihval⟩ := ih
    rw [List.range_succ, List.foldl_append]
    set st := (List.range m).foldl (applyColorsStep y width rc) (out0, p0) with hst
    simp only [List.foldl_cons, List.foldl_nil]
    obtain ⟨hf1, hf2, hf3, hf4⟩ := ufFind_spec st.2 ihWF m
    have hstep : applyColorsStep y width rc st m =
        (((st.1.set ((y * width + m) * 3) (rc.getD (ufFind st.2 m).1 (0, 0, 0)).1).set
            ((y * width + m) * 3 + 1) (rc.getD (ufFind st.2 m).1 (0, 0, 0)).2.1).set
            ((y * width + m) * 3 + 2) (rc.getD (ufFind st.2 m).1 (0, 0, 0)).2.2,
          (ufFind st.2 m).2) := rfl
    rw [hstep]
    have hcol : rc.getD (ufFind st.2 m).1 (0, 0, 0) =
        rc.getD (rootD p0 m) (0, 0, 0) := by
      rw [hf1, ihroot m]
    refine ⟨hf3, fun z => (hf4 z).trans (ihroot z), hf2.trans ihplen, ?_, ?_⟩
    · simp only [List.length_set]
      exact iholen
    · intro x hx c hc hbound
      by_cases hxm : x = m
      · subst hxm
        have hlen1 : st.1.length = out0.length := iholen
        interval_cases c
        · simp only [Nat.add_zero]
          rw [getD_set_ne _ _ _ _ _ (by omega), getD_set_ne _ _ _ _ _ (by omega),
            getD_set_self _ _ _ _ (by omega), hcol]
          rfl
        · rw [getD_set_ne _ _ _ _ _ (by omega),
            getD_set_self _ _ _ _ (by rw [List.length_set]; omega), hcol]
          rfl
        · rw [getD_set_self _ _ _ _ (by simp only [List.length_set]; omega), hcol]
          rfl
      · have hxlt : x < m := by omega
        have hne : (y * width + x) * 3 + c < (y * width + m) * 3 := by
          have : x + 1 ≤ m := hxlt
          nlinarith
        rw [getD_set_ne _ _ _ _ _ (by omega), getD_set_ne _ _ _ _ _ (by omega),
          getD_set_ne _ _ _ _ _ (by omega)]
        exact ihval x hxlt c hc hbound

theorem uniteList_append_eq (p : List ℕ) (l1 l2 : List (ℕ × ℕ)) :
    uniteList p (l1 ++ l2) = uniteList (uniteList p l1) l2 := by
  simp [uniteList, List.foldl_append]

theorem foldl_uniteList_flatMap (g : ℕ → List (ℕ × ℕ)) (f : List ℕ → ℕ → List ℕ)
    (hfg : ∀ p x, f p x = uniteList p (g x)) :
    ∀ (xs : List ℕ) (p : List ℕ), xs.foldl f p = uniteList p (xs.flatMap g) := by
  intro xs
  induction xs with
  | nil => intro p; rfl
  | cons x xs ih =>
    intro p
    rw [List.foldl_cons, List.flatMap_cons, uniteList_append_eq, ← hfg p x]
    exact ih (f p x)

theorem buildUnionsStep_as_uniteList (y width : ℕ) (adj : List ℚ) (sep : List ℤ)
    (fg : ℚ) (p : List ℕ) (x : ℕ) :
    buildUnionsStep y width adj sep fg p x =
      uniteList p
        (if 0 ≤ (x : ℤ) - Int.tdiv (sep.getD (y * width + x) 0) 2 ∧
            (x : ℤ) - Int.tdiv (sep.getD (y * width + x) 0) 2 +
              sep.getD (y * width + x) 0 < (width : ℤ) then
          (if fg < adj.getD (y * width + x) 0 ∧ 0 < x then [(x - 1, x)] else []) ++
            [(((x : ℤ) - Int.tdiv (sep.getD (y * width + x) 0) 2).toNat,
              ((x : ℤ) - Int.tdiv (sep.getD (y * width + x) 0) 2 +
                sep.getD (y * width + x) 0).toNat)]
        else []) := by
  simp only [buildUnionsStep]
  by_cases h1 : 0 ≤ (x : ℤ) - Int.tdiv (sep.getD (y * width + x) 0) 2 ∧
      (x : ℤ) - Int.tdiv (sep.getD (y * width + x) 0) 2 +
        sep.getD (y * width + x) 0 < (width : ℤ)
  · rw [if_pos h1, if_pos h1]
    by_cases h2 : fg < adj.getD (y * width + x) 0 ∧ 0 < x
    · rw [if_pos h2, if_pos h2]; rfl
    · rw [if_neg h2, if_neg h2]; rfl
  · rw [if_neg h1, if_neg h1]; rfl

theorem buildUnions_as_uniteList (y width : ℕ) (adj : List ℚ) (sep : List ℤ)
    (fg : ℚ) (p0 : List ℕ) :
    buildUnions y width adj sep fg p0 =
      uniteList p0 (buildUnionsPairs y width adj sep fg) := by
  rw [buildUnions, buildUnionsPairs]
  exact foldl_uniteList_flatMap _ _
    (buildUnionsStep_as_uniteList y width adj sep fg) (List.range width) p0

theorem buildUnionsPairs_bounds (y width : ℕ) (adj : List ℚ) (sep : List ℤ)
    (fg : ℚ) (hsep : ∀ i, 0 ≤ sep.getD i 0) :
    ∀ ab ∈ buildUnionsPairs y width adj sep fg, ab.1 < width ∧ ab.2 < width := by
  intro ab hab
  rw [buildUnionsPairs] at hab
  rw [List.mem_flatMap] at hab
  obtain ⟨x, hx, hab⟩ := hab
  rw [List.mem_range] at hx
  by_cases h1 : 0 ≤ (x : ℤ) - Int.tdiv (sep.getD (y * width + x) 0) 2 ∧
      (x : ℤ) - Int.tdiv (sep.getD (y * width + x) 0) 2 +
        sep.getD (y * width + x) 0 < (width : ℤ)
  · rw [if_pos h1] at hab
    rw [List.mem_append] at hab
    have hs := hsep (y * width + x)
    rcases hab with hab | hab
    · by_cases h2 : fg < adj.getD (y * width + x) 0 ∧ 0 < x
      · rw [if_pos h2] at hab
        rw [List.mem_singleton] at hab
        subst hab
        exact ⟨by omega, hx⟩
      · rw [if_neg h2] at hab
        exact absurd hab (List.not_mem_nil ab)
    · rw [List.mem_singleton] at hab
      subst hab
      obtain ⟨hL, hR⟩ := h1
      constructor <;> (simp only []; omega)
  · rw [if_neg h1] at hab
    exact absurd hab (List.not_mem_nil ab)

/-- C5 (amended): within any single scanline, if pixels x₁ and x₂ are
united directly or transitively during the linking pass, then
`find(x₁) == find(x₂)` holds afterwards, and both pixels carry identical
RGB values at the end of `applyColors` for that scanline (the subsequent
edge-smoothing pass can still change the two pixels differently).  The
separation map is assumed entrywise nonnegative, as every map produced by
`calculateSeparationMap` with `eye_separation ≥ 3` is. -/
theorem scanline_united_same_color (y width height : ℕ) (adjusted_depth : List ℚ)
    (separation_map : List ℤ) (texture : List ℕ) (tw th tchan : ℕ)
    (rng : ℕ → ℕ) (brightness contrast fg : ℚ) (out0 : List ℕ) (k0 : ℕ)
    (x₁ x₂ : ℕ) (h1 : x₁ < width) (h2 : x₂ < width) (hy : y < height)
    (hsep : ∀ i, 0 ≤ separation_map.getD i 0)
    (hout : out0.length = width * height * 3)
    (hU : United (buildUnionsPairs y width adjusted_depth separation_map fg) x₁ x₂) :
    (ufFind (buildUnions y width adjusted_depth separation_map fg (ufReset width)) x₁).1 =
      (ufFind (buildUnions y width adjusted_depth separation_map fg (ufReset width)) x₂).1 ∧
    (∀ c, c < 3 →
      (processScanline y width height adjusted_depth separation_map texture tw th
          tchan rng brightness contrast fg out0 k0).1.getD ((y * width + x₁) * 3 + c) 0 =
        (processScanline y width height adjusted_depth separation_map texture tw th
          tchan rng brightness contrast fg out0 k0).1.getD ((y * width + x₂) * 3 + c) 0) := by
  have hbounds0 := buildUnionsPairs_bounds y width adjusted_depth separation_map fg hsep
  have hmem : ∀ ab ∈ buildUnionsPairs y width adjusted_depth separation_map fg,
      ab.1 < (ufReset width).length ∧ ab.2 < (ufReset width).length := by
    intro ab hab
    rw [ufReset_length]
    exact hbounds0 ab hab
  have hWF0 := ufReset_WF width
  have hBeq := buildUnions_as_uniteList y width adjusted_depth separation_map fg (ufReset width)
  obtain ⟨hlenB, hWFB, _, _⟩ := uniteList_spec
    (buildUnionsPairs y width adjusted_depth separation_map fg) (ufReset width) hWF0 hmem
  have hrootB := United_rootD (buildUnionsPairs y width adjusted_depth separation_map fg)
    (ufReset width) hWF0 hmem hU
  have hWFbuild : WFuf (buildUnions y width adjusted_depth separation_map fg (ufReset width)) := by
    rw [hBeq]; exact hWFB
  have hrootbuild : rootD (buildUnions y width adjusted_depth separation_map fg (ufReset width)) x₁ =
      rootD (buildUnions y width adjusted_depth separation_map fg (ufReset width)) x₂ := by
    rw [hBeq]; exact hrootB
  constructor
  · rw [(ufFind_spec _ hWFbuild x₁).1, (ufFind_spec _ hWFbuild x₂).1, hrootbuild]
  · intro c hc
    -- name the pipeline stages
    set pbuild := buildUnions y width adjusted_depth separation_map fg (ufReset width) with hpbuild
    set ir := identifyRoots width pbuild with hir
    set ac := assignColors y width height adjusted_depth fg ir.1 texture tw th tchan
      out0 rng brightness contrast ir.2 k0 with hac
    have hps : (processScanline y width height adjusted_depth separation_map texture tw th
        tchan rng brightness contrast fg out0 k0).1 = (applyColors y width ac.1 out0 ac.2.1).1 := rfl
    -- parent-state preservation through identifyRoots and assignColors
    obtain ⟨hWF2, hroot2, _⟩ := identifyRoots_fold_preserve (List.range width) ([], pbuild)
      (by exact hWFbuild)
    obtain ⟨hWF3, hroot3, _⟩ := assignColors_fold_parent y width height adjusted_depth fg
      ir.1 texture tw th tchan out0 rng brightness contrast (List.range width)
      (List.replicate width ((0, 0, 0) : Color), ir.2, k0) (by exact hWF2)
    have hroots : ∀ z, rootD ac.2.1 z = rootD pbuild z := by
      intro z
      have ha : rootD ac.2.1 z = rootD ir.2 z := hroot3 z
      have hb : rootD ir.2 z = rootD pbuild z := hroot2 z
      exact ha.trans hb
    -- what applyColors writes
    have happ := applyColors_fold_spec y width ac.1 out0 ac.2.1 (by exact hWF3) width
    obtain ⟨_, _, _, _, hval⟩ := happ
    have hbound : ∀ x, x < width → (y * width + x) * 3 + c < out0.length := by
      intro x hx
      rw [hout]
      have hxy : y * width + x < width * height := by
        have step1 : y * width + x < (y + 1) * width := by
          have : (y + 1) * width = y * width + width := by ring
          omega
        have step2 : (y + 1) * width ≤ height * width :=
          Nat.mul_le_mul_right width hy
        have step3 : height * width = width * height := Nat.mul_comm height width
        omega
      omega
    have hv1 := hval x₁ h1 c hc (hbound x₁ h1)
    have hv2 := hval x₂ h2 c hc (hbound x₂ h2)
    rw [hps]
    show ((List.range width).foldl (applyColorsStep y width ac.1) (out0, ac.2.1)).1.getD
        ((y * width + x₁) * 3 + c) 0 =
      ((List.range width).foldl (applyColorsStep y width ac.1) (out0, ac.2.1)).1.getD
        ((y * width + x₂) * 3 + c) 0
    rw [hv1, hv2, hroots x₁, hroots x₂, hrootbuild]

theorem getD_replicate_nonneg (n : ℕ) (v : ℤ) (hv : 0 ≤ v) (i : ℕ) :
    0 ≤ (List.replicate n v).getD i 0 := by
  by_cases h : i < n
  · have hlen : i < (List.replicate n v).length := by simpa using h
    rw [List.getD_eq_getElem _ 0 hlen, List.getElem_replicate]
    exact hv
  · have hlen : (List.replicate n v).length ≤ i := by
      simp only [List.length_replicate]
      omega
    simp [List.getD, List.getElem?_eq_none hlen]

/-- C5 counterexample: in a 6×3 run (uniform depth 0.95, eye separation 3,
no texture, constant fresh-colour stream (60,60,60), default options),
pixels 1 and 5 of scanline 1 are united transitively by the linking pass,
yet their final RGB values in the output image differ: pixel (1,1) is
interior and above `smoothThreshold`, so edge smoothing changes it to 120,
while pixel (5,1) sits on the border and keeps 60. -/
theorem united_pixels_final_rgb_differ :
    United (buildUnionsPairs 1 6 (adjustDepthRange (List.replicate 18 (19/20)) 0)
        (calculateSeparationMap (fun _ _ => 0)
          (adjustDepthRange (List.replicate 18 (19/20)) 0) 6 3 3 1) (9/10)) 1 5 ∧
    (generate (fun _ _ => 0) (fun _ => 60) (List.replicate 18 (19/20)) 6 3 3 []
        0 0 0 1 1 0 {}).getD ((1 * 6 + 1) * 3) 0 = 120 ∧
    (generate (fun _ _ => 0) (fun _ => 60) (List.replicate 18 (19/20)) 6 3 3 []
        0 0 0 1 1 0 {}).getD ((1 * 6 + 5) * 3) 0 = 60 := by
  refine ⟨?_, ?_, ?_⟩
  · have m01 : ((0 : ℕ), (1 : ℕ)) ∈ buildUnionsPairs 1 6
        (adjustDepthRange (List.replicate 18 (19/20)) 0)
        (calculateSeparationMap (fun _ _ => 0)
          (adjustDepthRange (List.replicate 18 (19/20)) 0) 6 3 3 1) (9/10) := by
      with_unfolding_all decide
    have m03 : ((0 : ℕ), (3 : ℕ)) ∈ buildUnionsPairs 1 6
        (adjustDepthRange (List.replicate 18 (19/20)) 0)
        (calculateSeparationMap (fun _ _ => 0)
          (adjustDepthRange (List.replicate 18 (19/20)) 0) 6 3 3 1) (9/10) := by
      with_unfolding_all decide
    have m23 : ((2 : ℕ), (3 : ℕ)) ∈ buildUnionsPairs 1 6
        (adjustDepthRange (List.replicate 18 (19/20)) 0)
        (calculateSeparationMap (fun _ _ => 0)
          (adjustDepthRange (List.replicate 18 (19/20)) 0) 6 3 3 1) (9/10) := by
      with_unfolding_all decide
    have m25 : ((2 : ℕ), (5 : ℕ)) ∈ buildUnionsPairs 1 6
        (adjustDepthRange (List.replicate 18 (19/20)) 0)
        (calculateSeparationMap (fun _ _ => 0)
          (adjustDepthRange (List.replicate 18 (19/20)) 0) 6 3 3 1) (9/10) := by
      with_unfolding_all decide
    exact United.trans (United.symm (United.base m01))
      (United.trans (United.base m03)
        (United.trans (United.symm (United.base m23)) (United.base m25)))
  · with_unfolding_all decide
  · with_unfolding_all decide

/-- Witness for C5 (amended) at a concrete 4×1 scanline where pixels 1 and
3 are united transitively through pixel 0. -/
theorem scanline_united_same_color_witness :
    ((1 : ℕ) < 4 ∧ (3 : ℕ) < 4 ∧ (0 : ℕ) < 1 ∧
      (List.replicate 12 (0 : ℕ)).length = 4 * 1 * 3) ∧
    (ufFind (buildUnions 0 4 (List.replicate 4 (19/20)) (List.replicate 4 3)
        (9/10) (ufReset 4)) 1).1 =
      (ufFind (buildUnions 0 4 (List.replicate 4 (19/20)) (List.replicate 4 3)
        (9/10) (ufReset 4)) 3).1 :=
  ⟨⟨by decide, by decide, by decide, by decide⟩,
   (scanline_united_same_color 0 4 1 (List.replicate 4 (19/20))
      (List.replicate 4 3) [] 0 0 0 (fun _ => 1) 1 1 (9/10)
      (List.replicate 12 0) 0 1 3
      (by decide) (by decide) (by decide)
      (getD_replicate_nonneg 4 3 (by decide))
      (by decide)
      (United.trans
        (United.symm (United.base (show ((0 : ℕ), (1 : ℕ)) ∈ buildUnionsPairs 0 4
          (List.replicate 4 (19/20)) (List.replicate 4 3) (9/10) by
            with_unfolding_all decide)))
        (United.base (show ((0 : ℕ), (3 : ℕ)) ∈ buildUnionsPairs 0 4
          (List.replicate 4 (19/20)) (List.replicate 4 3) (9/10) by
            with_unfolding_all decide)))).1⟩
